import Mathlib

set_option maxHeartbeats 1000000

/-!
A shallow embedding of the commit-graph layout engine of `src/main.rs`
(the `Point`, `Line`, `UnavailablePoint`, `Branch`, `Vertex` and
`GraphBuilder` types and their methods, lines 340-924 of the source),
together with theorems about the layout algorithm.

Modelling conventions:
* Rust `Vec<T>` is `List T`; `i32` is `Int` (the loaded window is at most
  a few hundred rows, far below the `i32` range, so arithmetic never
  wraps); `usize` is `Nat`, and the cast `v as usize` of an `i32` is
  `usize_of_i32` (two's-complement reinterpretation).
* Rust's in-place mutation becomes explicit state passing; `vec[i] = ...`
  style updates become `modifyAt` / `List.set`.  Rust indexing panics out
  of bounds; every indexing site of the engine is in bounds (the
  invariants proved below show this), and the embedding uses `getD` with
  a default at those sites.
* The two row-walking `for`/`while` loops (`handle_merge_path`,
  `handle_normal_path`) advance their row cursor by one on every
  iteration, so they are recursions on a fuel that every call site sets
  to `vertices.length`, an upper bound on the remaining rows.  The outer
  dispatch loop of `load_commits` is *not* structurally bounded (its
  termination is one of the claims), so it takes an explicit `fuel` and
  returns `none` when the fuel runs out.
-/

def NULL_VERTEX_ID : Int := -1

/-- The Rust cast `v as usize` of an `i32` value, i.e. two's-complement
reinterpretation into a 64-bit unsigned integer. -/
def usize_of_i32 (v : Int) : Nat := (v % (2 ^ 64 : Int)).toNat

structure Point where
  x : Int
  y : Int
deriving Repr, DecidableEq

structure Line where
  p1 : Point
  p2 : Point
  locked_first : Bool
deriving Repr, DecidableEq

structure UnavailablePoint where
  connects_to : Int
  on_branch : Nat
deriving Repr, DecidableEq

instance : Inhabited UnavailablePoint := ⟨⟨NULL_VERTEX_ID, 0⟩⟩

structure Branch where
  colour : Nat
  «end» : Nat
  lines : List Line
  num_uncommitted : Nat
deriving Repr, DecidableEq

instance : Inhabited Branch := ⟨⟨0, 0, [], 0⟩⟩

def Branch.new (colour : Nat) : Branch := ⟨colour, 0, [], 0⟩

/-- `Branch::add_line` (src lines 381-394). -/
def Branch.add_line (b : Branch) (p1 p2 : Point) (is_committed locked_first : Bool) : Branch :=
  let b := { b with lines := b.lines ++ [⟨p1, p2, locked_first⟩] }
  if is_committed then
    if p2.x = 0 ∧ usize_of_i32 p2.y < b.num_uncommitted then
      { b with num_uncommitted := usize_of_i32 p2.y }
    else b
  else { b with num_uncommitted := b.num_uncommitted + 1 }

def Branch.get_colour (b : Branch) : Nat := b.colour

def Branch.set_end (b : Branch) (e : Nat) : Branch := { b with «end» := e }

structure Vertex where
  id : Int
  x : Int
  children : List Int
  parents : List Int
  next_parent : Nat
  on_branch : Option Nat
  is_committed : Bool
  is_current : Bool
  next_x : Int
  connections : List UnavailablePoint
deriving Repr, DecidableEq

def Vertex.new (id : Int) : Vertex :=
  ⟨id, 0, [], [], 0, none, true, false, 0, []⟩

instance : Inhabited Vertex := ⟨Vertex.new 0⟩

def Vertex.add_child (v : Vertex) (child_id : Int) : Vertex :=
  { v with children := v.children ++ [child_id] }

def Vertex.add_parent (v : Vertex) (parent_id : Int) : Vertex :=
  { v with parents := v.parents ++ [parent_id] }

def Vertex.get_next_parent (v : Vertex) : Option Int :=
  v.parents.get? v.next_parent

def Vertex.register_parent_processed (v : Vertex) : Vertex :=
  { v with next_parent := v.next_parent + 1 }

def Vertex.is_merge (v : Vertex) : Bool := v.parents.length > 1

/-- `Vertex::add_to_branch` (src lines 460-465): claims the vertex for a
branch, a no-op when the vertex is already on a branch. -/
def Vertex.add_to_branch (v : Vertex) (branch_idx : Nat) (x : Int) : Vertex :=
  if v.on_branch.isNone then { v with on_branch := some branch_idx, x := x } else v

def Vertex.is_not_on_branch (v : Vertex) : Bool := v.on_branch.isNone

def Vertex.get_point (v : Vertex) : Point := ⟨v.x, v.id⟩

def Vertex.get_next_point (v : Vertex) : Point := ⟨v.next_x, v.id⟩

/-- Linear scan of `connections` for a reservation routing to
`(vertex_id, on_branch)`; index-tracking helper for
`Vertex::get_point_connecting_to` (src lines 490-500). -/
def find_connection : List UnavailablePoint → Int → Nat → Nat → Option Nat
  | [], _, _, _ => none
  | c :: rest, vid, ob, i =>
    if c.connects_to = vid ∧ c.on_branch = ob then some i
    else find_connection rest vid ob (i + 1)

def Vertex.get_point_connecting_to (v : Vertex) (vertex_id : Int) (on_branch : Nat) :
    Option Point :=
  (find_connection v.connections vertex_id on_branch 0).map
    fun i : Nat => ⟨(i : Int), v.id⟩

/-- `Vertex::register_unavailable_point` (src lines 502-517): the
reservation is committed only when `x` equals the `next_x` counter.  The
Rust body pads `connections` with defaults up to index `x as usize` and
then overwrites that slot; at every (reachable) call `x = next_x ≥ 0` and
`connections.len() = next_x`, so exactly one default is pushed and then
replaced.  Here the cast is `Int.toNat` (identical to `as usize` for the
non-negative `x` of every reachable call). -/
def Vertex.register_unavailable_point (v : Vertex) (x : Int) (connects_to : Int)
    (on_branch : Nat) : Vertex :=
  if x = v.next_x then
    let conns := v.connections ++ List.replicate (x.toNat + 1 - v.connections.length) default
    { v with next_x := x + 1, connections := conns.set x.toNat ⟨connects_to, on_branch⟩ }
  else v

def Vertex.get_colour (v : Vertex) (branches : List Branch) : Nat :=
  (v.on_branch.map fun b => (branches.getD b default).get_colour).getD 0

def Vertex.set_not_committed (v : Vertex) : Vertex := { v with is_committed := false }

def Vertex.set_current (v : Vertex) : Vertex := { v with is_current := true }

/-- In-place update of one list slot (`vec[i].method(...)` in Rust);
out-of-range indices leave the list unchanged. -/
def modifyAt {α : Type _} : List α → Nat → (α → α) → List α
  | [], _, _ => []
  | a :: l, 0, f => f a :: l
  | a :: l, n + 1, f => a :: modifyAt l n f

structure GraphBuilder where
  vertices : List Vertex
  branches : List Branch
  available_colours : List Nat
deriving Repr, DecidableEq

def GraphBuilder.new : GraphBuilder := ⟨[], [], []⟩

/-- `self.vertices[i]` (in bounds at every reachable use). -/
def GraphBuilder.vtx (g : GraphBuilder) (i : Nat) : Vertex :=
  g.vertices.getD i default

def GraphBuilder.upd_vertex (g : GraphBuilder) (i : Nat) (f : Vertex → Vertex) :
    GraphBuilder :=
  { g with vertices := modifyAt g.vertices i f }

def GraphBuilder.upd_branch (g : GraphBuilder) (i : Nat) (f : Branch → Branch) :
    GraphBuilder :=
  { g with branches := modifyAt g.branches i f }

/-- Index scan of `GraphBuilder::get_available_colour` (src lines 751-759). -/
def find_colour : List Nat → Nat → Nat → Option Nat
  | [], _, _ => none
  | e :: rest, start_at, i =>
    if start_at > e then some i else find_colour rest start_at (i + 1)

/-- `GraphBuilder::get_available_colour` (src lines 751-759); returns the
chosen palette slot and the builder (whose palette gained a fresh slot
when no existing slot had finished before `start_at`). -/
def GraphBuilder.get_available_colour (g : GraphBuilder) (start_at : Nat) :
    Nat × GraphBuilder :=
  match find_colour g.available_colours start_at 0 with
  | some i => (i, g)
  | none => (g.available_colours.length,
             { g with available_colours := g.available_colours ++ [0] })

/-- The `for i in (start_at + 1)..self.vertices.len()` loop of
`GraphBuilder::handle_merge_path` (src lines 639-664).  `fuel` is at
least the number of rows left below `i`, so the recursion exactly mirrors
the loop. -/
def merge_walk (start_at : Nat) (parent_id : Int) (parent_branch : Nat)
    (vertex_is_committed : Bool) : Nat → GraphBuilder → Nat → Point → GraphBuilder
  | 0, g, _, _ => g
  | fuel + 1, g, i, last_point =>
    if i < g.vertices.length then
      match (g.vtx i).get_point_connecting_to parent_id parent_branch with
      | some cur =>
        let g := g.upd_branch parent_branch
          fun b => b.add_line last_point cur vertex_is_committed false
        let g := g.upd_vertex i
          fun v => v.register_unavailable_point cur.x parent_id parent_branch
        g.upd_vertex start_at Vertex.register_parent_processed
      | none =>
        let cur := (g.vtx i).get_next_point
        let locked_first := decide (¬ i = usize_of_i32 parent_id ∧ last_point.x < cur.x)
        let g := g.upd_branch parent_branch
          fun b => b.add_line last_point cur vertex_is_committed locked_first
        let g := g.upd_vertex i
          fun v => v.register_unavailable_point cur.x parent_id parent_branch
        merge_walk start_at parent_id parent_branch vertex_is_committed fuel g (i + 1) cur
    else g

/-- `GraphBuilder::handle_merge_path` (src lines 634-665). -/
def GraphBuilder.handle_merge_path (g : GraphBuilder) (start_at : Nat) (parent_id : Int)
    (last_point : Point) : GraphBuilder :=
  let parent_branch := (g.vtx (usize_of_i32 parent_id)).on_branch.getD 0
  let vertex_is_committed := (g.vtx start_at).is_committed
  merge_walk start_at parent_id parent_branch vertex_is_committed
    g.vertices.length g (start_at + 1) last_point

/-- The `while i < self.vertices.len()` loop of
`GraphBuilder::handle_normal_path` (src lines 679-735).  Returns the
builder together with the final values of `i` and `vertex_idx`. -/
def normal_walk (branch_idx : Nat) : Nat → GraphBuilder → Nat → Nat → Point →
    GraphBuilder × Nat × Nat
  | 0, g, vertex_idx, i, _ => (g, i, vertex_idx)
  | fuel + 1, g, vertex_idx, i, last_point =>
    if i < g.vertices.length then
      match (g.vtx vertex_idx).get_next_parent with
      | none => (g, i, vertex_idx)
      | some pid =>
        let vi := g.vtx i
        let cur :=
          if pid ≠ NULL_VERTEX_ID ∧ usize_of_i32 pid = i ∧ vi.is_not_on_branch = false
          then vi.get_point else vi.get_next_point
        let vertex_is_committed := (g.vtx vertex_idx).is_committed
        let locked_first := decide (last_point.x < cur.x)
        let g := g.upd_branch branch_idx
          fun b => b.add_line last_point cur vertex_is_committed locked_first
        let g := g.upd_vertex i
          fun v => v.register_unavailable_point cur.x pid branch_idx
        if pid ≠ NULL_VERTEX_ID ∧ usize_of_i32 pid = i then
          let g := g.upd_vertex vertex_idx Vertex.register_parent_processed
          let parent_on_branch := (g.vtx i).is_not_on_branch = false
          let g := g.upd_vertex i fun v => v.add_to_branch branch_idx cur.x
          if ((g.vtx i).get_next_parent).isNone ∨ parent_on_branch then (g, i, i)
          else normal_walk branch_idx fuel g i (i + 1) cur
        else normal_walk branch_idx fuel g vertex_idx (i + 1) cur
    else (g, i, vertex_idx)

/-- The tail of `GraphBuilder::handle_normal_path` after its walk loop
(src lines 737-747): consume a trailing NULL parent when the walk ran off
the window, record the branch end, update the colour slot. -/
def normal_path_finish (colour branch_idx : Nat) (r : GraphBuilder × Nat × Nat) :
    GraphBuilder :=
  let g := r.1
  let i := r.2.1
  let vertex_idx := r.2.2
  let g :=
    if i = g.vertices.length then
      match (g.vtx vertex_idx).get_next_parent with
      | some pid =>
        if pid = NULL_VERTEX_ID then g.upd_vertex vertex_idx Vertex.register_parent_processed
        else g
      | none => g
    else g
  let g := g.upd_branch branch_idx fun b => b.set_end i
  { g with available_colours := g.available_colours.set colour i }

/-- `GraphBuilder::handle_normal_path` (src lines 667-748). -/
def GraphBuilder.handle_normal_path (g : GraphBuilder) (start_at : Nat)
    (last_point : Point) : GraphBuilder :=
  let cg := g.get_available_colour start_at
  let colour := cg.1
  let g := cg.2
  let branch_idx := g.branches.length
  let g := { g with branches := g.branches ++ [Branch.new colour] }
  let vertex_id := (g.vtx start_at).id
  let g := g.upd_vertex start_at fun v => v.add_to_branch branch_idx last_point.x
  let g := g.upd_vertex start_at
    fun v => v.register_unavailable_point last_point.x vertex_id branch_idx
  normal_path_finish colour branch_idx
    (normal_walk branch_idx g.vertices.length g start_at (start_at + 1) last_point)

/-- `GraphBuilder::determine_path` (src lines 607-632). -/
def GraphBuilder.determine_path (g : GraphBuilder) (start_at : Nat) : GraphBuilder :=
  let parent_id := (g.vtx start_at).get_next_parent
  let last_point :=
    if (g.vtx start_at).is_not_on_branch then (g.vtx start_at).get_next_point
    else (g.vtx start_at).get_point
  match parent_id with
  | some pid =>
    if pid ≠ NULL_VERTEX_ID ∧ (g.vtx start_at).is_merge
        ∧ (g.vtx start_at).is_not_on_branch = false
        ∧ (g.vtx (usize_of_i32 pid)).is_not_on_branch = false then
      g.handle_merge_path start_at pid last_point
    else g.handle_normal_path start_at last_point
  | none => g.handle_normal_path start_at last_point

/-- One row's contribution to the parent/child edge setup of
`GraphBuilder::load_commits` (src lines 572-581), for a single entry of
its parent list. -/
def add_edge (vs : List Vertex) (commit_count : Nat) (idx : Nat) (parent_id : Int) :
    List Vertex :=
  if 0 ≤ parent_id ∧ parent_id < (commit_count : Int) then
    let vs := modifyAt vs idx fun v => v.add_parent parent_id
    modifyAt vs parent_id.toNat fun v => v.add_child (idx : Int)
  else if parent_id = NULL_VERTEX_ID then
    modifyAt vs idx fun v => v.add_parent NULL_VERTEX_ID
  else vs

def add_edges_row (vs : List Vertex) (commit_count : Nat) (idx : Nat)
    (parents : List Int) : List Vertex :=
  parents.foldl (fun vs p => add_edge vs commit_count idx p) vs

/-- The vertex-set construction of `GraphBuilder::load_commits`
(src lines 558-593): clear state, create one vertex per row, record
parent/child edges, mark the uncommitted row and HEAD. -/
def GraphBuilder.setup (commit_count : Nat) (parent_map : List (Nat × List Int))
    (head_index : Option Nat) (has_uncommitted : Bool) : GraphBuilder :=
  if commit_count = 0 then GraphBuilder.new
  else
    let vs := (List.range commit_count).map fun i : Nat => Vertex.new (i : Int)
    let vs := parent_map.foldl (fun vs e => add_edges_row vs commit_count e.1 e.2) vs
    let vs :=
      if has_uncommitted ∧ vs ≠ [] then modifyAt vs 0 Vertex.set_not_committed else vs
    let vs :=
      match head_index with
      | some h => if h < vs.length then modifyAt vs h Vertex.set_current else vs
      | none => vs
    ⟨vs, [], []⟩

/-- The dispatch loop of `GraphBuilder::load_commits` (src lines 596-603).
`none` means the fuel ran out before the loop finished. -/
def load_loop (g : GraphBuilder) (i : Nat) : Nat → Option GraphBuilder
  | 0 => if i < g.vertices.length then none else some g
  | fuel + 1 =>
    if i < g.vertices.length then
      if ((g.vtx i).get_next_parent).isSome ∨ (g.vtx i).is_not_on_branch then
        load_loop (g.determine_path i) i fuel
      else load_loop g (i + 1) fuel
    else some g

/-- `GraphBuilder::load_commits` (src lines 551-604).  The receiver `g` is
unused because the Rust method begins by clearing all three collections of
the builder, which are its only fields. -/
def GraphBuilder.load_commits (_g : GraphBuilder) (fuel : Nat) (commit_count : Nat)
    (parent_map : List (Nat × List Int)) (head_index : Option Nat)
    (has_uncommitted : Bool) : Option GraphBuilder :=
  load_loop (GraphBuilder.setup commit_count parent_map head_index has_uncommitted) 0 fuel

def GraphBuilder.get_vertex_column (g : GraphBuilder) (row : Nat) : Int :=
  if row < g.vertices.length then (g.vtx row).x else 0

def GraphBuilder.get_vertex_colour (g : GraphBuilder) (row : Nat) : Nat :=
  if row < g.vertices.length then (g.vtx row).get_colour g.branches else 0

def GraphBuilder.is_vertex_merge (g : GraphBuilder) (row : Nat) : Bool :=
  if row < g.vertices.length then (g.vtx row).is_merge else false

/-! ## Basic toolkit: `modifyAt`, the progress measure, operation lemmas -/

theorem length_modifyAt {α : Type _} (l : List α) (i : Nat) (f : α → α) :
    (modifyAt l i f).length = l.length := by
  induction l generalizing i with
  | nil => rfl
  | cons a t ih => cases i <;> simp [modifyAt, ih]

theorem modifyAt_oob {α : Type _} (l : List α) (i : Nat) (f : α → α)
    (h : l.length ≤ i) : modifyAt l i f = l := by
  induction l generalizing i with
  | nil => rfl
  | cons a t ih =>
    cases i with
    | zero => simp at h
    | succ i => simp only [modifyAt, List.cons.injEq, true_and]
                exact ih i (by simpa using h)

theorem getD_modifyAt_ne {α : Type _} (l : List α) (i j : Nat) (f : α → α) (d : α)
    (h : i ≠ j) : (modifyAt l i f).getD j d = l.getD j d := by
  induction l generalizing i j with
  | nil => rfl
  | cons a t ih =>
    cases i with
    | zero =>
      cases j with
      | zero => exact absurd rfl h
      | succ j => simp [modifyAt]
    | succ i =>
      cases j with
      | zero => simp [modifyAt]
      | succ j => simpa [modifyAt] using ih i j fun hh => h (by rw [hh])

theorem getD_modifyAt_self {α : Type _} (l : List α) (i : Nat) (f : α → α) (d : α)
    (h : i < l.length) : (modifyAt l i f).getD i d = f (l.getD i d) := by
  induction l generalizing i with
  | nil => simp at h
  | cons a t ih =>
    cases i with
    | zero => simp [modifyAt]
    | succ i => simpa [modifyAt] using ih i (by simpa using h)

/-- Unconsumed work at one vertex: 1 if it is not yet on a branch, plus its
number of unconsumed parent pointers. -/
def Vertex.pending (v : Vertex) : Nat :=
  (if v.on_branch.isNone then 1 else 0) + (v.parents.length - v.next_parent)

def muV : List Vertex → Nat
  | [] => 0
  | v :: t => v.pending + muV t

/-- The progress measure of the dispatch loop: total unconsumed work. -/
def GraphBuilder.mu (g : GraphBuilder) : Nat := muV g.vertices

theorem muV_modifyAt_le (l : List Vertex) (i : Nat) (f : Vertex → Vertex)
    (hf : ∀ a, (f a).pending ≤ a.pending) : muV (modifyAt l i f) ≤ muV l := by
  induction l generalizing i with
  | nil => simp [modifyAt]
  | cons a t ih =>
    cases i with
    | zero => simpa [modifyAt, muV] using Nat.add_le_add_right (hf a) (muV t)
    | succ i => simpa [modifyAt, muV] using Nat.add_le_add_left (ih i) a.pending

theorem muV_modifyAt_lt (l : List Vertex) (i : Nat) (f : Vertex → Vertex)
    (h : i < l.length) (hf : (f (l.getD i default)).pending < (l.getD i default).pending) :
    muV (modifyAt l i f) < muV l := by
  induction l generalizing i with
  | nil => simp at h
  | cons a t ih =>
    cases i with
    | zero => simpa [modifyAt, muV] using Nat.add_lt_add_right (by simpa using hf) (muV t)
    | succ i =>
      have := ih i (by simpa using h) (by simpa using hf)
      simpa [modifyAt, muV] using Nat.add_lt_add_left this a.pending

theorem pending_register (v : Vertex) (x ct : Int) (ob : Nat) :
    (v.register_unavailable_point x ct ob).pending = v.pending := by
  unfold Vertex.register_unavailable_point
  split <;> simp [Vertex.pending]

theorem pending_add_to_branch_le (v : Vertex) (b : Nat) (x : Int) :
    (v.add_to_branch b x).pending ≤ v.pending := by
  unfold Vertex.add_to_branch
  split <;> simp_all [Vertex.pending]

theorem pending_add_to_branch_lt (v : Vertex) (b : Nat) (x : Int)
    (h : v.on_branch.isNone) : (v.add_to_branch b x).pending < v.pending := by
  unfold Vertex.add_to_branch
  simp [h, Vertex.pending]

theorem pending_rpp_le (v : Vertex) :
    v.register_parent_processed.pending ≤ v.pending := by
  simp only [Vertex.register_parent_processed, Vertex.pending]
  have : v.parents.length - (v.next_parent + 1) ≤ v.parents.length - v.next_parent :=
    Nat.sub_le_sub_left (Nat.le_succ _) _
  omega

theorem pending_rpp_lt (v : Vertex) (h : v.next_parent < v.parents.length) :
    v.register_parent_processed.pending < v.pending := by
  simp only [Vertex.register_parent_processed, Vertex.pending]
  omega

theorem get_next_parent_isSome_iff (v : Vertex) :
    v.get_next_parent.isSome ↔ v.next_parent < v.parents.length := by
  unfold Vertex.get_next_parent
  constructor
  · intro h
    by_contra hc
    rw [List.get?_eq_none.mpr (Nat.le_of_not_lt hc)] at h
    simp at h
  · intro h
    rw [List.get?_eq_get h]
    simp

/-! Facts about the builder-level update helpers. -/

theorem vertices_upd_branch (g : GraphBuilder) (i : Nat) (f : Branch → Branch) :
    (g.upd_branch i f).vertices = g.vertices := rfl

theorem vtx_upd_branch (g : GraphBuilder) (i : Nat) (f : Branch → Branch) (k : Nat) :
    (g.upd_branch i f).vtx k = g.vtx k := rfl

theorem mu_upd_branch (g : GraphBuilder) (i : Nat) (f : Branch → Branch) :
    (g.upd_branch i f).mu = g.mu := rfl

theorem length_upd_vertex (g : GraphBuilder) (i : Nat) (f : Vertex → Vertex) :
    (g.upd_vertex i f).vertices.length = g.vertices.length :=
  length_modifyAt _ _ _

theorem vtx_upd_vertex_ne (g : GraphBuilder) (i : Nat) (f : Vertex → Vertex) (k : Nat)
    (h : i ≠ k) : (g.upd_vertex i f).vtx k = g.vtx k :=
  getD_modifyAt_ne _ _ _ _ _ h

theorem vtx_upd_vertex_self (g : GraphBuilder) (i : Nat) (f : Vertex → Vertex)
    (h : i < g.vertices.length) : (g.upd_vertex i f).vtx i = f (g.vtx i) :=
  getD_modifyAt_self _ _ _ _ h

theorem vtx_upd_vertex_oob (g : GraphBuilder) (i : Nat) (f : Vertex → Vertex)
    (h : g.vertices.length ≤ i) : g.upd_vertex i f = g := by
  unfold GraphBuilder.upd_vertex
  rw [modifyAt_oob _ _ _ h]

theorem mu_upd_vertex_le (g : GraphBuilder) (i : Nat) (f : Vertex → Vertex)
    (hf : ∀ a, (f a).pending ≤ a.pending) : (g.upd_vertex i f).mu ≤ g.mu :=
  muV_modifyAt_le _ _ _ hf

theorem mu_upd_vertex_lt (g : GraphBuilder) (i : Nat) (f : Vertex → Vertex)
    (h : i < g.vertices.length) (hf : (f (g.vtx i)).pending < (g.vtx i).pending) :
    (g.upd_vertex i f).mu < g.mu :=
  muV_modifyAt_lt _ _ _ h hf

/-! ## The run invariant -/

/-- The reservation table of a vertex is dense: its length always equals
the `next_x` counter (which never goes negative). -/
def DenseV (v : Vertex) : Prop :=
  0 ≤ v.next_x ∧ v.connections.length = v.next_x.toNat

/-- A claimed vertex holds, at its own claimed lane, a reservation routing
to itself on its own branch (registered at the moment of claiming). -/
def SelfResV (v : Vertex) (k : Nat) : Prop :=
  ∀ b, v.on_branch = some b →
    0 ≤ v.x ∧ v.x < v.next_x ∧ v.connections.getD v.x.toNat default = ⟨(k : Int), b⟩

/-- A claimed vertex's branch index is a valid index into `branches`. -/
def BranchIdxV (v : Vertex) (m : Nat) : Prop := ∀ b, v.on_branch = some b → b < m

/-- Every stored parent is the NULL sentinel or a valid row index. -/
def ParentsOkV (v : Vertex) (n : Nat) : Prop :=
  ∀ p ∈ v.parents, p = NULL_VERTEX_ID ∨ (0 ≤ p ∧ p.toNat < n)

/-- Every line of every branch spans exactly one row downwards. -/
def LineOk (l : Line) : Prop := 0 ≤ l.p1.y ∧ l.p2.y = l.p1.y + 1

def decidableOptionForall {o : Option Nat} {P : Nat → Prop} [inst : ∀ b, Decidable (P b)] :
    Decidable (∀ b, o = some b → P b) :=
  match o with
  | none => isTrue (by intro b h; cases h)
  | some b0 =>
    match inst b0 with
    | isTrue h => isTrue (by intro b hb
                             rw [Option.some.injEq] at hb
                             exact hb ▸ h)
    | isFalse h => isFalse fun H => h (H b0 rfl)

instance (v : Vertex) (k : Nat) : Decidable (SelfResV v k) := decidableOptionForall

instance (v : Vertex) (m : Nat) : Decidable (BranchIdxV v m) := decidableOptionForall

instance (v : Vertex) : Decidable (DenseV v) := by
  unfold DenseV
  infer_instance

instance (v : Vertex) (n : Nat) : Decidable (ParentsOkV v n) := by
  unfold ParentsOkV
  infer_instance

instance (l : Line) : Decidable (LineOk l) := by
  unfold LineOk
  infer_instance

/-- The per-vertex part of the run invariant, for a vertex stored at row
`k` of a window of `len` rows with `m` branches so far. -/
def VOk (len m : Nat) (v : Vertex) (k : Nat) : Prop :=
  v.id = (k : Int) ∧ DenseV v ∧ SelfResV v k ∧ BranchIdxV v m ∧ ParentsOkV v len

/-- Every line of every branch spans exactly one row. -/
def LinesOk (bs : List Branch) : Prop := ∀ b ∈ bs, ∀ l ∈ b.lines, LineOk l

instance (len m : Nat) (v : Vertex) (k : Nat) : Decidable (VOk len m v k) := by
  unfold VOk
  infer_instance

instance (bs : List Branch) : Decidable (LinesOk bs) := by
  unfold LinesOk
  infer_instance

/-- The invariant carried through the whole traversal.  The window-size
bound `2 ^ 31` reflects the `i32` vertex ids of the source: a window that
large could not even be indexed by the original program. -/
def GraphInv (g : GraphBuilder) : Prop :=
  g.vertices.length < 2 ^ 31 ∧
  (∀ k, k < g.vertices.length →
    VOk g.vertices.length g.branches.length (g.vtx k) k) ∧
  LinesOk g.branches

instance (g : GraphBuilder) : Decidable (GraphInv g) := by
  unfold GraphInv
  infer_instance

/-! ## Characterisations of the vertex operations -/

theorem set_append_last {α : Type _} (l : List α) (a b : α) :
    (l ++ [a]).set l.length b = l ++ [b] := by
  induction l with
  | nil => rfl
  | cons x t ih =>
    show x :: ((t ++ [a]).set t.length b) = x :: (t ++ [b])
    rw [ih]

theorem register_eq_of_ne (v : Vertex) (x ct : Int) (ob : Nat) (h : x ≠ v.next_x) :
    v.register_unavailable_point x ct ob = v := by
  unfold Vertex.register_unavailable_point
  rw [if_neg h]

theorem register_eq_append (v : Vertex) (ct : Int) (ob : Nat) (hD : DenseV v) :
    v.register_unavailable_point v.next_x ct ob =
      { v with next_x := v.next_x + 1, connections := v.connections ++ [⟨ct, ob⟩] } := by
  obtain ⟨h0, hlen⟩ := hD
  unfold Vertex.register_unavailable_point
  rw [if_pos rfl]
  have h1 : v.next_x.toNat + 1 - v.connections.length = 1 := by omega
  simp only [h1, List.replicate_one]
  rw [← hlen, set_append_last]

theorem denseV_register (v : Vertex) (x ct : Int) (ob : Nat) (h : DenseV v) :
    DenseV (v.register_unavailable_point x ct ob) := by
  by_cases hx : x = v.next_x
  · subst hx
    rw [register_eq_append v ct ob h]
    obtain ⟨h0, hlen⟩ := h
    constructor
    · dsimp only
      omega
    · dsimp only
      rw [List.length_append, hlen]
      simp only [List.length_singleton]
      omega
  · rw [register_eq_of_ne v x ct ob hx]
    exact h

theorem on_branch_register (v : Vertex) (x ct : Int) (ob : Nat) :
    (v.register_unavailable_point x ct ob).on_branch = v.on_branch := by
  unfold Vertex.register_unavailable_point
  split <;> rfl

theorem x_register (v : Vertex) (x ct : Int) (ob : Nat) :
    (v.register_unavailable_point x ct ob).x = v.x := by
  unfold Vertex.register_unavailable_point
  split <;> rfl

theorem id_register (v : Vertex) (x ct : Int) (ob : Nat) :
    (v.register_unavailable_point x ct ob).id = v.id := by
  unfold Vertex.register_unavailable_point
  split <;> rfl

theorem parents_register (v : Vertex) (x ct : Int) (ob : Nat) :
    (v.register_unavailable_point x ct ob).parents = v.parents := by
  unfold Vertex.register_unavailable_point
  split <;> rfl

theorem next_parent_register (v : Vertex) (x ct : Int) (ob : Nat) :
    (v.register_unavailable_point x ct ob).next_parent = v.next_parent := by
  unfold Vertex.register_unavailable_point
  split <;> rfl

theorem selfResV_register (v : Vertex) (k : Nat) (x ct : Int) (ob : Nat)
    (hD : DenseV v) (h : SelfResV v k) :
    SelfResV (v.register_unavailable_point x ct ob) k := by
  by_cases hx : x = v.next_x
  · subst hx
    rw [register_eq_append v ct ob hD]
    intro b hb
    dsimp only at hb ⊢
    obtain ⟨h1, h2, h3⟩ := h b hb
    refine ⟨h1, by omega, ?_⟩
    rw [List.getD_append]
    · exact h3
    · obtain ⟨h0, hlen⟩ := hD
      omega
  · rw [register_eq_of_ne v x ct ob hx]
    exact h

theorem branchIdxV_register (v : Vertex) (m : Nat) (x ct : Int) (ob : Nat)
    (h : BranchIdxV v m) : BranchIdxV (v.register_unavailable_point x ct ob) m := by
  intro b hb
  rw [on_branch_register] at hb
  exact h b hb

theorem parentsOkV_register (v : Vertex) (n : Nat) (x ct : Int) (ob : Nat)
    (h : ParentsOkV v n) : ParentsOkV (v.register_unavailable_point x ct ob) n := by
  intro p hp
  rw [parents_register] at hp
  exact h p hp

theorem add_to_branch_of_isSome (v : Vertex) (b : Nat) (x : Int)
    (h : v.on_branch.isSome) : v.add_to_branch b x = v := by
  unfold Vertex.add_to_branch
  rw [if_neg]
  simp [Option.isNone_iff_eq_none]
  exact Option.ne_none_iff_isSome.mpr h

theorem add_to_branch_of_none (v : Vertex) (b : Nat) (x : Int)
    (h : v.on_branch = none) :
    v.add_to_branch b x = { v with on_branch := some b, x := x } := by
  unfold Vertex.add_to_branch
  rw [if_pos]
  simp [h]

theorem on_branch_add_to_branch_mono (v : Vertex) (b : Nat) (x : Int) (b0 : Nat)
    (h : v.on_branch = some b0) : (v.add_to_branch b x).on_branch = some b0 := by
  rw [add_to_branch_of_isSome v b x (by simp [h])]
  exact h

theorem id_add_to_branch (v : Vertex) (b : Nat) (x : Int) :
    (v.add_to_branch b x).id = v.id := by
  unfold Vertex.add_to_branch
  split <;> rfl

theorem parents_add_to_branch (v : Vertex) (b : Nat) (x : Int) :
    (v.add_to_branch b x).parents = v.parents := by
  unfold Vertex.add_to_branch
  split <;> rfl

theorem next_parent_add_to_branch (v : Vertex) (b : Nat) (x : Int) :
    (v.add_to_branch b x).next_parent = v.next_parent := by
  unfold Vertex.add_to_branch
  split <;> rfl

theorem connections_add_to_branch (v : Vertex) (b : Nat) (x : Int) :
    (v.add_to_branch b x).connections = v.connections := by
  unfold Vertex.add_to_branch
  split <;> rfl

theorem next_x_add_to_branch (v : Vertex) (b : Nat) (x : Int) :
    (v.add_to_branch b x).next_x = v.next_x := by
  unfold Vertex.add_to_branch
  split <;> rfl

theorem denseV_add_to_branch (v : Vertex) (b : Nat) (x : Int) (h : DenseV v) :
    DenseV (v.add_to_branch b x) := by
  unfold DenseV at *
  rw [connections_add_to_branch, next_x_add_to_branch]
  exact h

theorem denseV_rpp (v : Vertex) (h : DenseV v) :
    DenseV v.register_parent_processed := h

theorem selfResV_rpp (v : Vertex) (k : Nat) (h : SelfResV v k) :
    SelfResV v.register_parent_processed k := h

theorem branchIdxV_rpp (v : Vertex) (m : Nat) (h : BranchIdxV v m) :
    BranchIdxV v.register_parent_processed m := h

theorem branchIdxV_mono (v : Vertex) (m m' : Nat) (h : m ≤ m') (hv : BranchIdxV v m) :
    BranchIdxV v m' := fun b hb => lt_of_lt_of_le (hv b hb) h

/-! ## Preservation through the traversal -/

/-- What every traversal step preserves about a vertex: its identity, its
parent list, and (monotonically) its branch membership. -/
def PresV (v v' : Vertex) : Prop :=
  v'.id = v.id ∧ v'.parents = v.parents ∧
  ∀ b, v.on_branch = some b → v'.on_branch = some b

theorem presV_refl (v : Vertex) : PresV v v := ⟨rfl, rfl, fun _ h => h⟩

theorem presV_trans {a b c : Vertex} (h1 : PresV a b) (h2 : PresV b c) : PresV a c :=
  ⟨h2.1.trans h1.1, h2.2.1.trans h1.2.1, fun b0 h => h2.2.2 b0 (h1.2.2 b0 h)⟩

def Pres (g g' : GraphBuilder) : Prop :=
  g'.vertices.length = g.vertices.length ∧
  g.branches.length ≤ g'.branches.length ∧
  ∀ k, PresV (g.vtx k) (g'.vtx k)

theorem pres_refl (g : GraphBuilder) : Pres g g := ⟨rfl, le_refl _, fun _ => presV_refl _⟩

theorem pres_trans {g1 g2 g3 : GraphBuilder} (h1 : Pres g1 g2) (h2 : Pres g2 g3) :
    Pres g1 g3 :=
  ⟨h2.1.trans h1.1, le_trans h1.2.1 h2.2.1, fun k => presV_trans (h1.2.2 k) (h2.2.2 k)⟩

theorem length_branches_upd_branch (g : GraphBuilder) (i : Nat) (f : Branch → Branch) :
    (g.upd_branch i f).branches.length = g.branches.length :=
  length_modifyAt _ _ _

theorem pres_upd_branch (g : GraphBuilder) (i : Nat) (f : Branch → Branch) :
    Pres g (g.upd_branch i f) :=
  ⟨rfl, le_of_eq (length_branches_upd_branch g i f).symm, fun _ => presV_refl _⟩

theorem pres_push_branch (g : GraphBuilder) (b : Branch) :
    Pres g { g with branches := g.branches ++ [b] } :=
  ⟨rfl, by simp, fun _ => presV_refl _⟩

theorem pres_set_colours (g : GraphBuilder) (cs : List Nat) :
    Pres g { g with available_colours := cs } :=
  ⟨rfl, le_refl _, fun _ => presV_refl _⟩

theorem pres_upd_vertex (g : GraphBuilder) (i : Nat) (f : Vertex → Vertex)
    (hf : ∀ v, PresV v (f v)) : Pres g (g.upd_vertex i f) := by
  refine ⟨length_upd_vertex g i f, le_refl _, fun k => ?_⟩
  by_cases hik : i = k
  · subst hik
    by_cases hlt : i < g.vertices.length
    · rw [vtx_upd_vertex_self g i f hlt]
      exact hf _
    · rw [vtx_upd_vertex_oob g i f (Nat.le_of_not_lt hlt)]
      exact presV_refl _
  · rw [vtx_upd_vertex_ne g i f k hik]
    exact presV_refl _

theorem presV_register (v : Vertex) (x ct : Int) (ob : Nat) :
    PresV v (v.register_unavailable_point x ct ob) :=
  ⟨id_register v x ct ob, parents_register v x ct ob,
   fun b h => by rw [on_branch_register]; exact h⟩

theorem presV_rpp (v : Vertex) : PresV v v.register_parent_processed :=
  ⟨rfl, rfl, fun _ h => h⟩

theorem presV_add_to_branch (v : Vertex) (b : Nat) (x : Int) :
    PresV v (v.add_to_branch b x) :=
  ⟨id_add_to_branch v b x, parents_add_to_branch v b x,
   fun b0 h => on_branch_add_to_branch_mono v b x b0 h⟩

theorem mu_push_branch (g : GraphBuilder) (b : Branch) :
    ({ g with branches := g.branches ++ [b] } : GraphBuilder).mu = g.mu := rfl

theorem mu_set_colours (g : GraphBuilder) (cs : List Nat) :
    ({ g with available_colours := cs } : GraphBuilder).mu = g.mu := rfl

theorem mu_upd_vertex_register (g : GraphBuilder) (i : Nat) (x ct : Int) (ob : Nat) :
    (g.upd_vertex i fun v => v.register_unavailable_point x ct ob).mu ≤ g.mu :=
  mu_upd_vertex_le g i _ fun a => le_of_eq (pending_register a x ct ob)

theorem mu_upd_vertex_rpp (g : GraphBuilder) (i : Nat) :
    (g.upd_vertex i Vertex.register_parent_processed).mu ≤ g.mu :=
  mu_upd_vertex_le g i _ fun a => pending_rpp_le a

theorem mu_upd_vertex_add_to_branch (g : GraphBuilder) (i : Nat) (b : Nat) (x : Int) :
    (g.upd_vertex i fun v => v.add_to_branch b x).mu ≤ g.mu :=
  mu_upd_vertex_le g i _ fun a => pending_add_to_branch_le a b x

/-- `merge_walk` preserves the vertex skeleton and never increases the
progress measure. -/
theorem merge_walk_pres_mu (sa : Nat) (pid : Int) (pb : Nat) (vc : Bool) :
    ∀ fuel g i lp, Pres g (merge_walk sa pid pb vc fuel g i lp) ∧
      (merge_walk sa pid pb vc fuel g i lp).mu ≤ g.mu := by
  intro fuel
  induction fuel with
  | zero => exact fun g i lp => ⟨pres_refl g, le_refl _⟩
  | succ fuel ih =>
    intro g i lp
    rw [merge_walk]
    by_cases hlt : i < g.vertices.length
    · rw [if_pos hlt]
      cases hconn : (g.vtx i).get_point_connecting_to pid pb with
      | some cur =>
        dsimp only
        refine ⟨pres_trans (pres_upd_branch _ _ _) (pres_trans
          (pres_upd_vertex _ _ _ fun v => presV_register v cur.x pid pb)
          (pres_upd_vertex _ _ _ fun v => presV_rpp v)), ?_⟩
        calc ((((g.upd_branch pb _).upd_vertex i _).upd_vertex sa
                Vertex.register_parent_processed)).mu
            ≤ ((g.upd_branch pb _).upd_vertex i _).mu := mu_upd_vertex_rpp _ _
          _ ≤ (g.upd_branch pb _).mu := mu_upd_vertex_register _ _ _ _ _
          _ = g.mu := mu_upd_branch _ _ _
      | none =>
        dsimp only
        refine ⟨pres_trans (pres_upd_branch _ _ _) (pres_trans
          (pres_upd_vertex _ _ _ fun v =>
            presV_register v (g.vtx i).get_next_point.x pid pb) ((ih _ _ _).1)), ?_⟩
        calc (merge_walk sa pid pb vc fuel _ (i + 1) _).mu
            ≤ ((g.upd_branch pb _).upd_vertex i _).mu := (ih _ _ _).2
          _ ≤ (g.upd_branch pb _).mu := mu_upd_vertex_register _ _ _ _ _
          _ = g.mu := mu_upd_branch _ _ _
    · rw [if_neg hlt]
      exact ⟨pres_refl g, le_refl _⟩

theorem pres_mu_line_register (g : GraphBuilder) (bidx i : Nat) (lp cur : Point)
    (vc lf : Bool) (pid : Int) :
    Pres g ((g.upd_branch bidx fun b => b.add_line lp cur vc lf).upd_vertex i
      fun v => v.register_unavailable_point cur.x pid bidx) ∧
    ((g.upd_branch bidx fun b => b.add_line lp cur vc lf).upd_vertex i
      fun v => v.register_unavailable_point cur.x pid bidx).mu ≤ g.mu := by
  constructor
  · exact pres_trans (pres_upd_branch _ _ _)
      (pres_upd_vertex _ _ _ fun v => presV_register v cur.x pid bidx)
  · calc ((g.upd_branch bidx _).upd_vertex i _).mu
        ≤ (g.upd_branch bidx fun b => b.add_line lp cur vc lf).mu :=
          mu_upd_vertex_register _ _ _ _ _
      _ = g.mu := mu_upd_branch _ _ _

theorem pres_mu_claim_step (g : GraphBuilder) (bidx i vidx : Nat) (lp cur : Point)
    (vc lf : Bool) (pid : Int) :
    Pres g (((((g.upd_branch bidx fun b => b.add_line lp cur vc lf).upd_vertex i
        fun v => v.register_unavailable_point cur.x pid bidx).upd_vertex vidx
        Vertex.register_parent_processed).upd_vertex i
        fun v => v.add_to_branch bidx cur.x)) ∧
    (((((g.upd_branch bidx fun b => b.add_line lp cur vc lf).upd_vertex i
        fun v => v.register_unavailable_point cur.x pid bidx).upd_vertex vidx
        Vertex.register_parent_processed).upd_vertex i
        fun v => v.add_to_branch bidx cur.x)).mu ≤ g.mu := by
  obtain ⟨hp2, hm2⟩ := pres_mu_line_register g bidx i lp cur vc lf pid
  constructor
  · exact pres_trans hp2 (pres_trans
      (pres_upd_vertex _ _ _ presV_rpp)
      (pres_upd_vertex _ _ _ fun v => presV_add_to_branch v bidx cur.x))
  · calc ((((_ : GraphBuilder).upd_vertex vidx _).upd_vertex i _)).mu
        ≤ (((g.upd_branch bidx fun b => b.add_line lp cur vc lf).upd_vertex i
            fun v => v.register_unavailable_point cur.x pid bidx).upd_vertex vidx
            Vertex.register_parent_processed).mu := mu_upd_vertex_add_to_branch _ _ _ _
      _ ≤ ((g.upd_branch bidx fun b => b.add_line lp cur vc lf).upd_vertex i
            fun v => v.register_unavailable_point cur.x pid bidx).mu :=
          mu_upd_vertex_rpp _ _
      _ ≤ g.mu := hm2

/-- `normal_walk` preserves the vertex skeleton and never increases the
progress measure. -/
theorem normal_walk_pres_mu (bidx : Nat) :
    ∀ fuel g vidx i lp, Pres g (normal_walk bidx fuel g vidx i lp).1 ∧
      (normal_walk bidx fuel g vidx i lp).1.mu ≤ g.mu := by
  intro fuel
  induction fuel with
  | zero => exact fun g vidx i lp => ⟨pres_refl g, le_refl _⟩
  | succ fuel ih =>
    intro g vidx i lp
    rw [normal_walk]
    by_cases hlt : i < g.vertices.length
    · rw [if_pos hlt]
      cases hp : (g.vtx vidx).get_next_parent with
      | none => exact ⟨pres_refl g, le_refl _⟩
      | some pid =>
        dsimp only
        generalize (if pid ≠ NULL_VERTEX_ID ∧ usize_of_i32 pid = i ∧
            (g.vtx i).is_not_on_branch = false
          then (g.vtx i).get_point else (g.vtx i).get_next_point) = cur
        by_cases hpe : pid ≠ NULL_VERTEX_ID ∧ usize_of_i32 pid = i
        · rw [if_pos hpe]
          obtain ⟨hp4, hm4⟩ := pres_mu_claim_step g bidx i vidx lp cur
            (g.vtx vidx).is_committed (decide (lp.x < cur.x)) pid
          split
          · exact ⟨hp4, hm4⟩
          · obtain ⟨hpr, hmr⟩ := ih _ i (i + 1) cur
            exact ⟨pres_trans hp4 hpr, le_trans hmr hm4⟩
        · rw [if_neg hpe]
          obtain ⟨hp2, hm2⟩ := pres_mu_line_register g bidx i lp cur
            (g.vtx vidx).is_committed (decide (lp.x < cur.x)) pid
          obtain ⟨hpr, hmr⟩ := ih _ vidx (i + 1) cur
          exact ⟨pres_trans hp2 hpr, le_trans hmr hm2⟩
    · rw [if_neg hlt]
      exact ⟨pres_refl g, le_refl _⟩

theorem get_available_colour_pres (g : GraphBuilder) (s : Nat) :
    Pres g (g.get_available_colour s).2 ∧ (g.get_available_colour s).2.mu = g.mu := by
  unfold GraphBuilder.get_available_colour
  cases find_colour g.available_colours s 0 with
  | none => exact ⟨pres_set_colours g _, rfl⟩
  | some c => exact ⟨pres_refl g, rfl⟩

theorem pres_mu_finish_core (g' : GraphBuilder) (branch_idx colour i : Nat) :
    Pres g' ({ (g'.upd_branch branch_idx fun b => b.set_end i) with
        available_colours :=
          (g'.upd_branch branch_idx fun b => b.set_end i).available_colours.set colour i }) ∧
    ({ (g'.upd_branch branch_idx fun b => b.set_end i) with
        available_colours :=
          (g'.upd_branch branch_idx fun b => b.set_end i).available_colours.set colour i } :
      GraphBuilder).mu ≤ g'.mu := by
  constructor
  · exact pres_trans (pres_upd_branch _ _ _) (pres_set_colours _ _)
  · exact le_of_eq rfl

theorem normal_path_finish_pres_mu (colour branch_idx : Nat) (r : GraphBuilder × Nat × Nat) :
    Pres r.1 (normal_path_finish colour branch_idx r) ∧
      (normal_path_finish colour branch_idx r).mu ≤ r.1.mu := by
  unfold normal_path_finish
  dsimp only
  split
  · split
    · split
      · refine ⟨pres_trans (pres_upd_vertex _ _ _ presV_rpp)
          (pres_mu_finish_core _ _ _ _).1, ?_⟩
        exact le_trans (pres_mu_finish_core _ _ _ _).2 (mu_upd_vertex_rpp _ _)
      · exact pres_mu_finish_core _ _ _ _
    · exact pres_mu_finish_core _ _ _ _
  · exact pres_mu_finish_core _ _ _ _

theorem hnp_pres_mu (g : GraphBuilder) (sa : Nat) (lp : Point) :
    Pres g (g.handle_normal_path sa lp) ∧ (g.handle_normal_path sa lp).mu ≤ g.mu := by
  unfold GraphBuilder.handle_normal_path
  dsimp only
  obtain ⟨hp1, hm1⟩ := get_available_colour_pres g sa
  generalize hC : (g.get_available_colour sa).1 = colour at *
  generalize hG1 : (g.get_available_colour sa).2 = g1 at *
  have hm2 : ({ g1 with branches := g1.branches ++ [Branch.new colour] } :
      GraphBuilder).mu = g1.mu := mu_push_branch g1 _
  have hp2 : Pres g1 { g1 with branches := g1.branches ++ [Branch.new colour] } :=
    pres_push_branch g1 _
  generalize hG2 : ({ g1 with branches := g1.branches ++ [Branch.new colour] } :
      GraphBuilder) = g2 at *
  have hp3 : Pres g2 (g2.upd_vertex sa fun v => v.add_to_branch g1.branches.length lp.x) :=
    pres_upd_vertex g2 sa _ fun v => presV_add_to_branch v _ lp.x
  have hm3 : (g2.upd_vertex sa fun v => v.add_to_branch g1.branches.length lp.x).mu ≤
      g2.mu := mu_upd_vertex_add_to_branch g2 sa _ lp.x
  generalize hG3 : (g2.upd_vertex sa fun v => v.add_to_branch g1.branches.length lp.x) = g3
    at *
  have hp4 : Pres g3 (g3.upd_vertex sa fun v =>
      v.register_unavailable_point lp.x (g2.vtx sa).id g1.branches.length) :=
    pres_upd_vertex g3 sa _ fun v => presV_register v lp.x _ _
  have hm4 : (g3.upd_vertex sa fun v =>
      v.register_unavailable_point lp.x (g2.vtx sa).id g1.branches.length).mu ≤ g3.mu :=
    mu_upd_vertex_register g3 sa lp.x _ _
  generalize hG4 : (g3.upd_vertex sa fun v =>
      v.register_unavailable_point lp.x (g2.vtx sa).id g1.branches.length) = g4 at *
  obtain ⟨hpw, hmw⟩ :=
    normal_walk_pres_mu g1.branches.length g4.vertices.length g4 sa (sa + 1) lp
  obtain ⟨hpf, hmf⟩ := normal_path_finish_pres_mu colour g1.branches.length
    (normal_walk g1.branches.length g4.vertices.length g4 sa (sa + 1) lp)
  constructor
  · exact pres_trans hp1 (pres_trans hp2 (pres_trans hp3 (pres_trans hp4
      (pres_trans hpw hpf))))
  · calc (normal_path_finish colour g1.branches.length
          (normal_walk g1.branches.length g4.vertices.length g4 sa (sa + 1) lp)).mu
        ≤ (normal_walk g1.branches.length g4.vertices.length g4 sa (sa + 1) lp).1.mu := hmf
      _ ≤ g4.mu := hmw
      _ ≤ g3.mu := hm4
      _ ≤ g2.mu := hm3
      _ = g1.mu := hm2
      _ = g.mu := hm1

theorem hmp_pres_mu (g : GraphBuilder) (sa : Nat) (pid : Int) (lp : Point) :
    Pres g (g.handle_merge_path sa pid lp) ∧ (g.handle_merge_path sa pid lp).mu ≤ g.mu := by
  unfold GraphBuilder.handle_merge_path
  exact merge_walk_pres_mu _ _ _ _ _ _ _ _

/-- `determine_path` preserves the vertex skeleton and never increases the
progress measure. -/
theorem dp_pres_mu (g : GraphBuilder) (i : Nat) :
    Pres g (g.determine_path i) ∧ (g.determine_path i).mu ≤ g.mu := by
  unfold GraphBuilder.determine_path
  dsimp only
  cases (g.vtx i).get_next_parent with
  | none => exact hnp_pres_mu g i _
  | some pid =>
    dsimp only
    split
    · exact hmp_pres_mu g i pid _
    · exact hnp_pres_mu g i _

/-! ## Invariant preservation -/

theorem mem_modifyAt_of {α : Type _} {P : α → Prop} :
    ∀ (l : List α) (i : Nat) (f : α → α), (∀ a ∈ l, P a) → (∀ a, P a → P (f a)) →
      ∀ a ∈ modifyAt l i f, P a := by
  intro l
  induction l with
  | nil => intro i f h hf a ha; cases ha
  | cons x t ih =>
    intro i f h hf a ha
    cases i with
    | zero =>
      rcases List.mem_cons.mp ha with rfl | ha2
      · exact hf x (h x (List.mem_cons_self x t))
      · exact h a (List.mem_cons_of_mem _ ha2)
    | succ i =>
      rcases List.mem_cons.mp ha with rfl | ha2
      · exact h _ (List.mem_cons_self _ _)
      · exact ih i f (fun a ha3 => h a (List.mem_cons_of_mem _ ha3)) hf a ha2

theorem modifyAt_eq_self {α : Type _} [Inhabited α] (l : List α) (i : Nat) (f : α → α)
    (h : f (l.getD i default) = l.getD i default) : modifyAt l i f = l := by
  induction l generalizing i with
  | nil => rfl
  | cons x t ih =>
    cases i with
    | zero =>
      simp only [modifyAt, List.getD_cons_zero] at h ⊢
      rw [h]
    | succ i =>
      simp only [modifyAt, List.getD_cons_succ] at h ⊢
      rw [ih i h]

theorem lines_add_line (b : Branch) (p1 p2 : Point) (c lf : Bool) :
    (b.add_line p1 p2 c lf).lines = b.lines ++ [⟨p1, p2, lf⟩] := by
  unfold Branch.add_line
  dsimp only
  split
  · split <;> rfl
  · rfl

theorem lines_set_end (b : Branch) (e : Nat) : (b.set_end e).lines = b.lines := rfl

theorem linesOk_add_line (bs : List Branch) (i : Nat) (p1 p2 : Point) (c lf : Bool)
    (h : LinesOk bs) (hL : LineOk ⟨p1, p2, lf⟩) :
    LinesOk (modifyAt bs i fun b => b.add_line p1 p2 c lf) := by
  refine mem_modifyAt_of bs i _ h ?_
  intro b hb l hl
  rw [lines_add_line] at hl
  rcases List.mem_append.mp hl with hl | hl
  · exact hb l hl
  · rw [List.mem_singleton.mp hl]
    exact hL

theorem linesOk_set_end (bs : List Branch) (i e : Nat) (h : LinesOk bs) :
    LinesOk (modifyAt bs i fun b => b.set_end e) := by
  refine mem_modifyAt_of bs i _ h ?_
  intro b hb l hl
  rw [lines_set_end] at hl
  exact hb l hl

theorem linesOk_push (bs : List Branch) (b : Branch) (h : LinesOk bs)
    (hb : ∀ l ∈ b.lines, LineOk l) : LinesOk (bs ++ [b]) := by
  intro b' hb' l hl
  rcases List.mem_append.mp hb' with hb' | hb'
  · exact h b' hb' l hl
  · rw [List.mem_singleton.mp hb'] at hl
    exact hb l hl

theorem vok_register (len m : Nat) (v : Vertex) (k : Nat) (x ct : Int) (ob : Nat)
    (h : VOk len m v k) : VOk len m (v.register_unavailable_point x ct ob) k :=
  ⟨by rw [id_register]; exact h.1, denseV_register v x ct ob h.2.1,
   selfResV_register v k x ct ob h.2.1 h.2.2.1, branchIdxV_register v m x ct ob h.2.2.2.1,
   parentsOkV_register v len x ct ob h.2.2.2.2⟩

theorem vok_rpp (len m : Nat) (v : Vertex) (k : Nat) (h : VOk len m v k) :
    VOk len m v.register_parent_processed k := h

theorem vok_mono (len m m' : Nat) (v : Vertex) (k : Nat) (h : m ≤ m')
    (hv : VOk len m v k) : VOk len m' v k :=
  ⟨hv.1, hv.2.1, hv.2.2.1, branchIdxV_mono v m m' h hv.2.2.2.1, hv.2.2.2.2⟩

theorem vtx_oob (g : GraphBuilder) (k : Nat) (h : g.vertices.length ≤ k) :
    g.vtx k = default :=
  List.getD_eq_default _ _ h

/-- `upd_vertex` with a per-vertex-invariant-preserving function preserves
the builder invariant. -/
theorem graphInv_upd_vertex (g : GraphBuilder) (i : Nat) (f : Vertex → Vertex)
    (hInv : GraphInv g)
    (hf : i < g.vertices.length →
      VOk g.vertices.length g.branches.length (g.vtx i) i →
      VOk g.vertices.length g.branches.length (f (g.vtx i)) i) :
    GraphInv (g.upd_vertex i f) := by
  obtain ⟨h31, hvs, hls⟩ := hInv
  refine ⟨by rw [length_upd_vertex]; exact h31, ?_, hls⟩
  intro k hk
  rw [length_upd_vertex] at hk
  show VOk (g.upd_vertex i f).vertices.length g.branches.length ((g.upd_vertex i f).vtx k) k
  rw [length_upd_vertex]
  by_cases hik : i = k
  · subst hik
    rw [vtx_upd_vertex_self g i f hk]
    exact hf hk (hvs i hk)
  · rw [vtx_upd_vertex_ne g i f k hik]
    exact hvs k hk

theorem graphInv_upd_vertex_register (g : GraphBuilder) (i : Nat) (x ct : Int) (ob : Nat)
    (hInv : GraphInv g) :
    GraphInv (g.upd_vertex i fun v => v.register_unavailable_point x ct ob) :=
  graphInv_upd_vertex g i _ hInv fun _ hv => vok_register _ _ _ i x ct ob hv

theorem graphInv_upd_vertex_rpp (g : GraphBuilder) (i : Nat) (hInv : GraphInv g) :
    GraphInv (g.upd_vertex i Vertex.register_parent_processed) :=
  graphInv_upd_vertex g i _ hInv fun _ hv => vok_rpp _ _ _ i hv

/-- Adding a (one-row-spanning) line to a branch preserves the invariant. -/
theorem graphInv_upd_branch_add_line (g : GraphBuilder) (i : Nat) (p1 p2 : Point)
    (c lf : Bool) (hInv : GraphInv g) (hL : LineOk ⟨p1, p2, lf⟩) :
    GraphInv (g.upd_branch i fun b => b.add_line p1 p2 c lf) := by
  obtain ⟨h31, hvs, hls⟩ := hInv
  refine ⟨h31, ?_, linesOk_add_line g.branches i p1 p2 c lf hls hL⟩
  intro k hk
  show VOk g.vertices.length (modifyAt g.branches i _).length (g.vtx k) k
  rw [length_modifyAt]
  exact hvs k hk

theorem graphInv_upd_branch_set_end (g : GraphBuilder) (i e : Nat) (hInv : GraphInv g) :
    GraphInv (g.upd_branch i fun b => b.set_end e) := by
  obtain ⟨h31, hvs, hls⟩ := hInv
  refine ⟨h31, ?_, linesOk_set_end g.branches i e hls⟩
  intro k hk
  show VOk g.vertices.length (modifyAt g.branches i _).length (g.vtx k) k
  rw [length_modifyAt]
  exact hvs k hk

theorem graphInv_push_branch (g : GraphBuilder) (b : Branch)
    (hInv : GraphInv g) (hb : ∀ l ∈ b.lines, LineOk l) :
    GraphInv { g with branches := g.branches ++ [b] } := by
  obtain ⟨h31, hvs, hls⟩ := hInv
  refine ⟨h31, ?_, linesOk_push g.branches b hls hb⟩
  intro k hk
  refine vok_mono _ g.branches.length _ _ k (by simp) (hvs k hk)

theorem graphInv_set_colours (g : GraphBuilder) (cs : List Nat) (hInv : GraphInv g) :
    GraphInv { g with available_colours := cs } :=
  hInv

theorem usize_of_i32_of_nonneg (p : Int) (h0 : 0 ≤ p) (h1 : p < 2 ^ 64) :
    usize_of_i32 p = p.toNat := by
  unfold usize_of_i32
  rw [Int.emod_eq_of_lt h0 h1]

theorem get_next_parent_default : (default : Vertex).get_next_parent = none := rfl

theorem vidx_lt_of_next_parent {g : GraphBuilder} {vidx : Nat} {pid : Int}
    (hp : (g.vtx vidx).get_next_parent = some pid) : vidx < g.vertices.length := by
  by_contra hc
  rw [vtx_oob g vidx (Nat.le_of_not_lt hc)] at hp
  rw [get_next_parent_default] at hp
  cases hp

theorem mem_parents_of_next_parent {v : Vertex} {pid : Int}
    (hp : v.get_next_parent = some pid) : pid ∈ v.parents :=
  List.get?_mem hp

/-- Claiming a vertex whose reservation table already holds, at slot `xc`,
a self-reservation for the claiming branch preserves the invariant. -/
theorem graphInv_add_to_branch_claimed_slot (g : GraphBuilder) (i bidx : Nat) (xc : Int)
    (hInv : GraphInv g) (hb : bidx < g.branches.length)
    (hslot : 0 ≤ xc ∧ xc < (g.vtx i).next_x ∧
      (g.vtx i).connections.getD xc.toNat default = ⟨(i : Int), bidx⟩) :
    GraphInv (g.upd_vertex i fun v => v.add_to_branch bidx xc) := by
  refine graphInv_upd_vertex g i _ hInv ?_
  intro hlt hv
  cases hob : (g.vtx i).on_branch with
  | some b0 =>
    rw [add_to_branch_of_isSome _ _ _ (by simp [hob])]
    exact hv
  | none =>
    rw [add_to_branch_of_none _ _ _ hob]
    obtain ⟨hid, hD, _hS, _hB, hP⟩ := hv
    refine ⟨hid, hD, ?_, ?_, hP⟩
    · intro b hbb
      simp only [Option.some.injEq] at hbb
      subst hbb
      exact ⟨hslot.1, hslot.2.1, hslot.2.2⟩
    · intro b hbb
      simp only [Option.some.injEq] at hbb
      subst hbb
      exact hb

/-- `merge_walk` preserves the invariant (the walk's last point always lies
one row above the cursor). -/
theorem merge_walk_inv (sa : Nat) (pid : Int) (pb : Nat) (vc : Bool) :
    ∀ (fuel : Nat) (g : GraphBuilder) (i : Nat) (lp : Point),
      GraphInv g → 0 ≤ lp.y → lp.y + 1 = (i : Int) →
      GraphInv (merge_walk sa pid pb vc fuel g i lp) := by
  intro fuel
  induction fuel with
  | zero => exact fun g i lp h _ _ => h
  | succ fuel ih =>
    intro g i lp hInv hy0 hy1
    rw [merge_walk]
    by_cases hlt : i < g.vertices.length
    · rw [if_pos hlt]
      have hid : (g.vtx i).id = (i : Int) := (hInv.2.1 i hlt).1
      cases hconn : (g.vtx i).get_point_connecting_to pid pb with
      | some cur =>
        dsimp only
        have hcy : cur.y = (i : Int) := by
          unfold Vertex.get_point_connecting_to at hconn
          cases hfc : find_connection (g.vtx i).connections pid pb 0 with
          | none => rw [hfc] at hconn; cases hconn
          | some n =>
            rw [hfc] at hconn
            injection hconn with h
            rw [← h]
            exact hid
        refine graphInv_upd_vertex_rpp _ sa (graphInv_upd_vertex_register _ i cur.x pid pb
          (graphInv_upd_branch_add_line g pb lp cur vc false hInv ?_))
        exact ⟨hy0, by rw [hcy, ← hy1]⟩
      | none =>
        dsimp only
        have hcy : (g.vtx i).get_next_point.y = (i : Int) := hid
        refine ih _ (i + 1) (g.vtx i).get_next_point
          (graphInv_upd_vertex_register _ i _ pid pb
            (graphInv_upd_branch_add_line g pb lp _ vc _ hInv ⟨hy0, by rw [hcy, ← hy1]⟩))
          (by rw [hcy]; exact Int.natCast_nonneg i) (by rw [hcy]; push_cast; ring)
    · rw [if_neg hlt]
      exact hInv

theorem upd_vertex_eq_self (g : GraphBuilder) (i : Nat) (f : Vertex → Vertex)
    (h : f (g.vtx i) = g.vtx i) : g.upd_vertex i f = g := by
  show ({ g with vertices := modifyAt g.vertices i f } : GraphBuilder) = g
  rw [modifyAt_eq_self g.vertices i f h]

theorem branches_upd_vertex (g : GraphBuilder) (i : Nat) (f : Vertex → Vertex) :
    (g.upd_vertex i f).branches = g.branches := rfl

/-- Derive `pid = i` (as integers) at a walk row where the source compares
`pid as usize == i`, using that stored parents are valid rows of a window
smaller than `2 ^ 31`. -/
theorem pid_eq_row {g : GraphBuilder} {vidx i : Nat} {pid : Int}
    (hInv : GraphInv g) (hvlt : vidx < g.vertices.length)
    (hp : (g.vtx vidx).get_next_parent = some pid)
    (hne : pid ≠ NULL_VERTEX_ID) (hu : usize_of_i32 pid = i) : pid = (i : Int) := by
  have hpmem := mem_parents_of_next_parent hp
  rcases (hInv.2.1 vidx hvlt).2.2.2.2 pid hpmem with h1 | ⟨h1, h2⟩
  · exact absurd h1 hne
  · have h31 : pid.toNat < 2 ^ 31 := lt_trans h2 hInv.1
    have h64 : pid < 2 ^ 64 := by omega
    rw [usize_of_i32_of_nonneg pid h1 h64] at hu
    omega

/-- `normal_walk` preserves the invariant. -/
theorem normal_walk_inv (bidx : Nat) :
    ∀ (fuel : Nat) (g : GraphBuilder) (vidx i : Nat) (lp : Point),
      GraphInv g → bidx < g.branches.length → vidx < i →
      0 ≤ lp.y → lp.y + 1 = (i : Int) →
      GraphInv (normal_walk bidx fuel g vidx i lp).1 := by
  intro fuel
  induction fuel with
  | zero => exact fun g vidx i lp h _ _ _ _ => h
  | succ fuel ih =>
    intro g vidx i lp hInv hb hvi hy0 hy1
    rw [normal_walk]
    by_cases hlt : i < g.vertices.length
    · rw [if_pos hlt]
      cases hp : (g.vtx vidx).get_next_parent with
      | none => exact hInv
      | some pid =>
        dsimp only
        have hvlt : vidx < g.vertices.length := vidx_lt_of_next_parent hp
        have hidi : (g.vtx i).id = (i : Int) := (hInv.2.1 i hlt).1
        by_cases hpe : pid ≠ NULL_VERTEX_ID ∧ usize_of_i32 pid = i
        · have hpidi : pid = (i : Int) := pid_eq_row hInv hvlt hp hpe.1 hpe.2
          rw [if_pos hpe]
          cases hob : (g.vtx i).on_branch with
          | some b0 =>
            have hnob : (g.vtx i).is_not_on_branch = false := by
              simp [Vertex.is_not_on_branch, hob]
            rw [if_pos (show pid ≠ NULL_VERTEX_ID ∧ usize_of_i32 pid = i ∧
              (g.vtx i).is_not_on_branch = false from ⟨hpe.1, hpe.2, hnob⟩)]
            have hSR := (hInv.2.1 i hlt).2.2.1 b0 hob
            -- the register is a no-op: the claimed lane is strictly below next_x
            have hg2 : ((g.upd_branch bidx fun b =>
                  b.add_line lp (g.vtx i).get_point (g.vtx vidx).is_committed
                    (decide (lp.x < (g.vtx i).get_point.x))).upd_vertex i fun v =>
                  v.register_unavailable_point (g.vtx i).get_point.x pid bidx) =
                (g.upd_branch bidx fun b =>
                  b.add_line lp (g.vtx i).get_point (g.vtx vidx).is_committed
                    (decide (lp.x < (g.vtx i).get_point.x))) := by
              refine upd_vertex_eq_self _ i _ ?_
              rw [vtx_upd_branch]
              exact register_eq_of_ne _ _ _ _ (by exact ne_of_lt hSR.2.1)
            rw [hg2]
            have hInv1 : GraphInv (g.upd_branch bidx fun b =>
                b.add_line lp (g.vtx i).get_point (g.vtx vidx).is_committed
                  (decide (lp.x < (g.vtx i).get_point.x))) :=
              graphInv_upd_branch_add_line g bidx lp _ _ _ hInv
                ⟨hy0, by show (g.vtx i).id = lp.y + 1; rw [hidi, ← hy1]⟩
            have hInv3 : GraphInv ((g.upd_branch bidx fun b =>
                b.add_line lp (g.vtx i).get_point (g.vtx vidx).is_committed
                  (decide (lp.x < (g.vtx i).get_point.x))).upd_vertex vidx
                Vertex.register_parent_processed) := graphInv_upd_vertex_rpp _ vidx hInv1
            have hg4 : (((g.upd_branch bidx fun b =>
                  b.add_line lp (g.vtx i).get_point (g.vtx vidx).is_committed
                    (decide (lp.x < (g.vtx i).get_point.x))).upd_vertex vidx
                  Vertex.register_parent_processed).upd_vertex i fun v =>
                  v.add_to_branch bidx (g.vtx i).get_point.x) =
                ((g.upd_branch bidx fun b =>
                  b.add_line lp (g.vtx i).get_point (g.vtx vidx).is_committed
                    (decide (lp.x < (g.vtx i).get_point.x))).upd_vertex vidx
                  Vertex.register_parent_processed) := by
              refine upd_vertex_eq_self _ i _ ?_
              rw [vtx_upd_vertex_ne _ _ _ _ (Nat.ne_of_lt hvi), vtx_upd_branch]
              exact add_to_branch_of_isSome _ _ _ (by simp [hob])
            rw [hg4]
            split
            · exact hInv3
            · refine ih _ i (i + 1) (g.vtx i).get_point hInv3 ?_ (Nat.lt_succ_self i)
                ?_ ?_
              · rw [branches_upd_vertex, length_branches_upd_branch]
                exact hb
              · show 0 ≤ (g.vtx i).id
                rw [hidi]
                exact Int.natCast_nonneg i
              · show (g.vtx i).id + 1 = ((i + 1 : Nat) : Int)
                rw [hidi]
                push_cast
                ring
          | none =>
            have hnob : (g.vtx i).is_not_on_branch = true := by
              simp [Vertex.is_not_on_branch, hob]
            rw [if_neg (show ¬(pid ≠ NULL_VERTEX_ID ∧ usize_of_i32 pid = i ∧
              (g.vtx i).is_not_on_branch = false) from fun hc => by
                rw [hnob] at hc
                exact Bool.noConfusion hc.2.2)]
            have hD := (hInv.2.1 i hlt).2.1
            have hInv1 : GraphInv (g.upd_branch bidx fun b =>
                b.add_line lp (g.vtx i).get_next_point (g.vtx vidx).is_committed
                  (decide (lp.x < (g.vtx i).get_next_point.x))) :=
              graphInv_upd_branch_add_line g bidx lp _ _ _ hInv
                ⟨hy0, by show (g.vtx i).id = lp.y + 1; rw [hidi, ← hy1]⟩
            have hInv2 : GraphInv ((g.upd_branch bidx fun b =>
                b.add_line lp (g.vtx i).get_next_point (g.vtx vidx).is_committed
                  (decide (lp.x < (g.vtx i).get_next_point.x))).upd_vertex i fun v =>
                v.register_unavailable_point (g.vtx i).get_next_point.x pid bidx) :=
              graphInv_upd_vertex_register _ i _ pid bidx hInv1
            have hInv3 := graphInv_upd_vertex_rpp _ vidx hInv2
            have hInv4 : GraphInv ((((g.upd_branch bidx fun b =>
                b.add_line lp (g.vtx i).get_next_point (g.vtx vidx).is_committed
                  (decide (lp.x < (g.vtx i).get_next_point.x))).upd_vertex i fun v =>
                v.register_unavailable_point (g.vtx i).get_next_point.x pid bidx).upd_vertex
                vidx Vertex.register_parent_processed).upd_vertex i fun v =>
                v.add_to_branch bidx (g.vtx i).get_next_point.x) := by
              refine graphInv_add_to_branch_claimed_slot _ i bidx _ hInv3 ?_ ?_
              · rw [branches_upd_vertex, branches_upd_vertex,
                  length_branches_upd_branch]
                exact hb
              · have hveq : (((g.upd_branch bidx fun b =>
                    b.add_line lp (g.vtx i).get_next_point (g.vtx vidx).is_committed
                      (decide (lp.x < (g.vtx i).get_next_point.x))).upd_vertex i fun v =>
                    v.register_unavailable_point (g.vtx i).get_next_point.x pid
                      bidx).upd_vertex vidx Vertex.register_parent_processed).vtx i =
                    (g.vtx i).register_unavailable_point (g.vtx i).next_x pid bidx := by
                  rw [vtx_upd_vertex_ne _ _ _ _ (Nat.ne_of_lt hvi),
                    vtx_upd_vertex_self _ _ _ (by rw [vertices_upd_branch]; exact hlt),
                    vtx_upd_branch]
                  rfl
                rw [hveq, register_eq_append _ _ _ hD]
                obtain ⟨hD0, hDlen⟩ := hD
                refine ⟨hD0, ?_, ?_⟩
                · show (g.vtx i).next_x < (g.vtx i).next_x + 1
                  omega
                · show ((g.vtx i).connections ++ [(⟨pid, bidx⟩ : UnavailablePoint)]).getD
                    (g.vtx i).next_x.toNat default = ⟨(i : Int), bidx⟩
                  rw [← hDlen, List.getD_append_right _ _ _ _ (le_refl _), Nat.sub_self]
                  rw [hpidi]
                  rfl
            split
            · exact hInv4
            · refine ih _ i (i + 1) (g.vtx i).get_next_point hInv4 ?_
                (Nat.lt_succ_self i) ?_ ?_
              · rw [branches_upd_vertex, branches_upd_vertex, branches_upd_vertex,
                  length_branches_upd_branch]
                exact hb
              · show 0 ≤ (g.vtx i).id
                rw [hidi]
                exact Int.natCast_nonneg i
              · show (g.vtx i).id + 1 = ((i + 1 : Nat) : Int)
                rw [hidi]
                push_cast
                ring
        · rw [if_neg hpe]
          rw [if_neg (show ¬(pid ≠ NULL_VERTEX_ID ∧ usize_of_i32 pid = i ∧
            (g.vtx i).is_not_on_branch = false) from fun hc => hpe ⟨hc.1, hc.2.1⟩)]
          refine ih _ vidx (i + 1) (g.vtx i).get_next_point ?_ ?_
            (lt_trans hvi (Nat.lt_succ_self i)) ?_ ?_
          · exact graphInv_upd_vertex_register _ i _ pid bidx
              (graphInv_upd_branch_add_line g bidx lp _ _ _ hInv
                ⟨hy0, by show (g.vtx i).id = lp.y + 1; rw [hidi, ← hy1]⟩)
          · rw [branches_upd_vertex, length_branches_upd_branch]
            exact hb
          · show 0 ≤ (g.vtx i).id
            rw [hidi]
            exact Int.natCast_nonneg i
          · show (g.vtx i).id + 1 = ((i + 1 : Nat) : Int)
            rw [hidi]
            push_cast
            ring
    · rw [if_neg hlt]
      exact hInv

theorem modifyAt_modifyAt {α : Type _} (l : List α) (i : Nat) (f h : α → α) :
    modifyAt (modifyAt l i f) i h = modifyAt l i fun a => h (f a) := by
  induction l generalizing i with
  | nil => rfl
  | cons a t ih =>
    cases i with
    | zero => rfl
    | succ i => simp [modifyAt, ih]

theorem upd_vertex_upd_vertex (g : GraphBuilder) (i : Nat) (f h : Vertex → Vertex) :
    (g.upd_vertex i f).upd_vertex i h = g.upd_vertex i fun v => h (f v) := by
  show ({ g with vertices := modifyAt (modifyAt g.vertices i f) i h } : GraphBuilder) = _
  rw [modifyAt_modifyAt]
  rfl

/-- Claiming an unclaimed vertex at its next free lane and then registering
the self-reservation there preserves the invariant (the start of
`handle_normal_path` for a fresh vertex; src lines 672-674). -/
theorem graphInv_claim_then_register (g : GraphBuilder) (sa bidx : Nat)
    (hInv : GraphInv g) (hb : bidx < g.branches.length)
    (hnone : (g.vtx sa).on_branch = none) :
    GraphInv ((g.upd_vertex sa fun v =>
        v.add_to_branch bidx (g.vtx sa).get_next_point.x).upd_vertex sa
        fun v => v.register_unavailable_point (g.vtx sa).get_next_point.x
          (g.vtx sa).id bidx) := by
  rw [upd_vertex_upd_vertex]
  refine graphInv_upd_vertex g sa _ hInv ?_
  intro hlt hv
  obtain ⟨hid, hD, hS, hB, hP⟩ := hv
  rw [add_to_branch_of_none _ _ _ hnone]
  have hD' : DenseV ({ g.vtx sa with
      on_branch := some bidx,
      x := (g.vtx sa).get_next_point.x } : Vertex) := hD
  have hreg : ({ g.vtx sa with
      on_branch := some bidx,
      x := (g.vtx sa).get_next_point.x } : Vertex).register_unavailable_point
        (g.vtx sa).get_next_point.x (g.vtx sa).id bidx =
      { g.vtx sa with
        on_branch := some bidx,
        x := (g.vtx sa).get_next_point.x,
        next_x := (g.vtx sa).next_x + 1,
        connections := (g.vtx sa).connections ++ [⟨(g.vtx sa).id, bidx⟩] } := by
    have := register_eq_append ({ g.vtx sa with
      on_branch := some bidx,
      x := (g.vtx sa).get_next_point.x } : Vertex) (g.vtx sa).id bidx hD'
    exact this
  rw [hreg]
  obtain ⟨hD0, hDlen⟩ := hD
  refine ⟨hid, ⟨by dsimp only; omega, ?_⟩, ?_, ?_, hP⟩
  · dsimp only
    rw [List.length_append, hDlen]
    simp only [List.length_singleton]
    omega
  · intro b hbb
    simp only [Option.some.injEq] at hbb
    subst hbb
    refine ⟨hD0, show (g.vtx sa).next_x < (g.vtx sa).next_x + 1 by omega, ?_⟩
    show ((g.vtx sa).connections ++ [(⟨(g.vtx sa).id, bidx⟩ : UnavailablePoint)]).getD
      (g.vtx sa).next_x.toNat default = ⟨(sa : Int), bidx⟩
    rw [← hDlen, List.getD_append_right _ _ _ _ (le_refl _), Nat.sub_self]
    rw [hid]
    rfl
  · intro b hbb
    simp only [Option.some.injEq] at hbb
    subst hbb
    exact hb

theorem get_available_colour_skeleton (g : GraphBuilder) (s : Nat) :
    (g.get_available_colour s).2.vertices = g.vertices ∧
    (g.get_available_colour s).2.branches = g.branches := by
  unfold GraphBuilder.get_available_colour
  cases find_colour g.available_colours s 0 with
  | none => exact ⟨rfl, rfl⟩
  | some c => exact ⟨rfl, rfl⟩

theorem graphInv_get_available_colour (g : GraphBuilder) (s : Nat) (h : GraphInv g) :
    GraphInv (g.get_available_colour s).2 := by
  unfold GraphBuilder.get_available_colour
  cases find_colour g.available_colours s 0 with
  | none => exact graphInv_set_colours g _ h
  | some c => exact h

theorem normal_path_finish_inv (colour branch_idx : Nat) (r : GraphBuilder × Nat × Nat)
    (h : GraphInv r.1) : GraphInv (normal_path_finish colour branch_idx r) := by
  unfold normal_path_finish
  dsimp only
  split
  · split
    · split
      · exact graphInv_set_colours _ _ (graphInv_upd_branch_set_end _ _ _
          (graphInv_upd_vertex_rpp _ _ h))
      · exact graphInv_set_colours _ _ (graphInv_upd_branch_set_end _ _ _ h)
    · exact graphInv_set_colours _ _ (graphInv_upd_branch_set_end _ _ _ h)
  · exact graphInv_set_colours _ _ (graphInv_upd_branch_set_end _ _ _ h)

/-- `handle_normal_path` preserves the invariant when its `last_point` is
the one `determine_path` computes. -/
theorem hnp_inv (g : GraphBuilder) (sa : Nat) (lp : Point)
    (hInv : GraphInv g) (hsa : sa < g.vertices.length)
    (hlp : lp = if (g.vtx sa).is_not_on_branch then (g.vtx sa).get_next_point
      else (g.vtx sa).get_point) :
    GraphInv (g.handle_normal_path sa lp) := by
  unfold GraphBuilder.handle_normal_path
  dsimp only
  obtain ⟨hV, hB⟩ := get_available_colour_skeleton g sa
  have hInv1 : GraphInv (g.get_available_colour sa).2 :=
    graphInv_get_available_colour g sa hInv
  generalize hC : (g.get_available_colour sa).1 = colour at *
  generalize hG1 : (g.get_available_colour sa).2 = g1 at *
  have hInv2 : GraphInv { g1 with branches := g1.branches ++ [Branch.new colour] } :=
    graphInv_push_branch g1 _ hInv1 (by intro l hl; cases hl)
  generalize hG2 : ({ g1 with branches := g1.branches ++ [Branch.new colour] } :
      GraphBuilder) = g2 at *
  have hv2 : g2.vertices = g.vertices := by rw [← hG2]; exact hV
  have hb2 : g2.branches = g1.branches ++ [Branch.new colour] := by rw [← hG2]
  have hvtx2 : ∀ k, g2.vtx k = g.vtx k := by
    intro k
    unfold GraphBuilder.vtx
    rw [hv2]
  have hblen : g1.branches.length < g2.branches.length := by
    rw [hb2]
    simp
  have hsa2 : sa < g2.vertices.length := by rw [hv2]; exact hsa
  have hid2 : (g2.vtx sa).id = (sa : Int) := by
    rw [hvtx2]
    exact (hInv.2.1 sa hsa).1
  -- the claim + self-reservation of the start vertex
  have hInv4 : GraphInv ((g2.upd_vertex sa fun v => v.add_to_branch
      g1.branches.length lp.x).upd_vertex sa fun v =>
      v.register_unavailable_point lp.x (g2.vtx sa).id g1.branches.length) := by
    cases hob : (g.vtx sa).on_branch with
    | none =>
      have hnob : (g.vtx sa).is_not_on_branch = true := by
        simp [Vertex.is_not_on_branch, hob]
      rw [hlp, if_pos hnob]
      have := graphInv_claim_then_register g2 sa g1.branches.length hInv2 hblen
        (by rw [hvtx2]; exact hob)
      have hgnp : (g2.vtx sa).get_next_point = (g.vtx sa).get_next_point := by
        rw [hvtx2]
      rw [hgnp] at this
      exact this
    | some b0 =>
      have hnob : (g.vtx sa).is_not_on_branch = false := by
        simp [Vertex.is_not_on_branch, hob]
      rw [hlp, if_neg (by rw [hnob]; exact fun hc => Bool.noConfusion hc)]
      have hSR := (hInv.2.1 sa hsa).2.2.1 b0 hob
      have e1 : (g2.upd_vertex sa fun v => v.add_to_branch
          g1.branches.length (g.vtx sa).get_point.x) = g2 := by
        refine upd_vertex_eq_self _ _ _ ?_
        rw [hvtx2]
        exact add_to_branch_of_isSome _ _ _ (by simp [hob])
      rw [e1]
      have e2 : (g2.upd_vertex sa fun v => v.register_unavailable_point
          (g.vtx sa).get_point.x (g2.vtx sa).id g1.branches.length) = g2 := by
        refine upd_vertex_eq_self _ _ _ ?_
        rw [hvtx2]
        exact register_eq_of_ne _ _ _ _ (ne_of_lt hSR.2.1)
      rw [e2]
      exact hInv2
  refine normal_path_finish_inv colour g1.branches.length _ ?_
  refine normal_walk_inv g1.branches.length _ _ sa (sa + 1) lp hInv4 ?_
    (Nat.lt_succ_self sa) ?_ ?_
  · rw [branches_upd_vertex, branches_upd_vertex, hb2]
    simp
  · have : lp.y = (g.vtx sa).id := by
      rw [hlp]
      split <;> rfl
    rw [this, (hInv.2.1 sa hsa).1]
    exact Int.natCast_nonneg sa
  · have : lp.y = (g.vtx sa).id := by
      rw [hlp]
      split <;> rfl
    rw [this, (hInv.2.1 sa hsa).1]
    push_cast
    ring

theorem hmp_inv (g : GraphBuilder) (sa : Nat) (pid : Int) (lp : Point)
    (hInv : GraphInv g) (hy0 : 0 ≤ lp.y) (hy1 : lp.y + 1 = ((sa + 1 : Nat) : Int)) :
    GraphInv (g.handle_merge_path sa pid lp) := by
  unfold GraphBuilder.handle_merge_path
  exact merge_walk_inv sa pid _ _ _ g (sa + 1) lp hInv hy0 hy1

/-- `determine_path` preserves the invariant. -/
theorem dp_inv (g : GraphBuilder) (i : Nat) (hInv : GraphInv g)
    (hlt : i < g.vertices.length) : GraphInv (g.determine_path i) := by
  unfold GraphBuilder.determine_path
  dsimp only
  have hid : (g.vtx i).id = (i : Int) := (hInv.2.1 i hlt).1
  cases hp : (g.vtx i).get_next_parent with
  | none => exact hnp_inv g i _ hInv hlt rfl
  | some pid =>
    dsimp only
    split
    · rename_i hcond
      have hnob : (g.vtx i).is_not_on_branch = false := hcond.2.2.1
      rw [if_neg (by rw [hnob]; exact fun hc => Bool.noConfusion hc)]
      refine hmp_inv g i pid _ hInv ?_ ?_
      · show 0 ≤ (g.vtx i).id
        rw [hid]
        exact Int.natCast_nonneg i
      · show (g.vtx i).id + 1 = ((i + 1 : Nat) : Int)
        rw [hid]
        push_cast
        ring
    · exact hnp_inv g i _ hInv hlt rfl

/-! ## The freshly-loaded state satisfies the invariant -/

/-- What holds of every vertex between `load_commits`' vertex construction
steps: fresh traversal state and valid recorded parents. -/
def SetupVOk (cc : Nat) (v : Vertex) (k : Nat) : Prop :=
  v.id = (k : Int) ∧ v.on_branch = none ∧ v.next_x = 0 ∧ v.connections = [] ∧
  ParentsOkV v cc

def SetupOk (cc : Nat) (vs : List Vertex) : Prop :=
  vs.length = cc ∧ ∀ k, k < cc → SetupVOk cc (vs.getD k default) k

theorem foldl_preserves {α β : Type _} (P : β → Prop) (f : β → α → β) :
    ∀ (l : List α) (b : β), P b → (∀ b a, a ∈ l → P b → P (f b a)) → P (l.foldl f b) := by
  intro l
  induction l with
  | nil => exact fun b hb _ => hb
  | cons x t ih =>
    intro b hb hf
    exact ih (f b x) (hf b x (List.mem_cons_self x t) hb)
      fun b a ha hb => hf b a (List.mem_cons_of_mem _ ha) hb

theorem setupOk_modifyAt (cc : Nat) (vs : List Vertex) (j : Nat) (f : Vertex → Vertex)
    (h : SetupOk cc vs)
    (hf : ∀ k, k < cc → SetupVOk cc (vs.getD k default) k →
      SetupVOk cc (f (vs.getD k default)) k) : SetupOk cc (modifyAt vs j f) := by
  obtain ⟨hlen, hP⟩ := h
  refine ⟨by rw [length_modifyAt]; exact hlen, ?_⟩
  intro k hk
  by_cases hjk : j = k
  · subst hjk
    rw [getD_modifyAt_self vs j f default (by rw [hlen]; exact hk)]
    exact hf j hk (hP j hk)
  · rw [getD_modifyAt_ne vs j k f default hjk]
    exact hP k hk

theorem setupVOk_add_parent (cc : Nat) (v : Vertex) (k : Nat) (p : Int)
    (hp : p = NULL_VERTEX_ID ∨ (0 ≤ p ∧ p.toNat < cc)) (h : SetupVOk cc v k) :
    SetupVOk cc (v.add_parent p) k := by
  obtain ⟨h1, h2, h3, h4, h5⟩ := h
  refine ⟨h1, h2, h3, h4, ?_⟩
  intro q hq
  rcases List.mem_append.mp hq with hq | hq
  · exact h5 q hq
  · rw [List.mem_singleton.mp hq]
    exact hp

theorem setupVOk_add_child (cc : Nat) (v : Vertex) (k : Nat) (c : Int)
    (h : SetupVOk cc v k) : SetupVOk cc (v.add_child c) k := h

theorem setupOk_add_edge (cc idx : Nat) (p : Int) (vs : List Vertex)
    (h : SetupOk cc vs) : SetupOk cc (add_edge vs cc idx p) := by
  unfold add_edge
  split
  · rename_i hv
    refine setupOk_modifyAt cc _ _ _ (setupOk_modifyAt cc vs idx _ h ?_) ?_
    · intro k hk hvk
      refine setupVOk_add_parent cc _ k p (Or.inr ⟨hv.1, ?_⟩) hvk
      have := hv.2
      omega
    · intro k hk hvk
      exact setupVOk_add_child cc _ k _ hvk
  · split
    · refine setupOk_modifyAt cc vs idx _ h ?_
      intro k hk hvk
      exact setupVOk_add_parent cc _ k _ (Or.inl rfl) hvk
    · exact h

theorem setupOk_flags (cc : Nat) (vs : List Vertex) (j : Nat) (h : SetupOk cc vs) :
    SetupOk cc (modifyAt vs j Vertex.set_not_committed) ∧
    SetupOk cc (modifyAt vs j Vertex.set_current) := by
  constructor
  · exact setupOk_modifyAt cc vs j _ h fun k hk hvk => hvk
  · exact setupOk_modifyAt cc vs j _ h fun k hk hvk => hvk

theorem setupOk_base (cc : Nat) :
    SetupOk cc ((List.range cc).map fun i : Nat => Vertex.new (i : Int)) := by
  constructor
  · rw [List.length_map, List.length_range]
  · intro k hk
    have hk' : k < ((List.range cc).map fun i : Nat => Vertex.new (i : Int)).length := by
      rw [List.length_map, List.length_range]
      exact hk
    rw [List.getD_eq_getElem _ _ hk', List.getElem_map, List.getElem_range]
    exact ⟨rfl, rfl, rfl, rfl, fun p hp => absurd hp (List.not_mem_nil p)⟩

theorem setupOk_setup (cc : Nat) (pm : List (Nat × List Int)) (hi : Option Nat)
    (hu : Bool) (hcc : cc ≠ 0) :
    SetupOk cc (GraphBuilder.setup cc pm hi hu).vertices := by
  unfold GraphBuilder.setup
  rw [if_neg hcc]
  dsimp only
  have h1 : SetupOk cc (pm.foldl (fun vs e => add_edges_row vs cc e.1 e.2)
      ((List.range cc).map fun i : Nat => Vertex.new (i : Int))) := by
    refine foldl_preserves _ _ pm _ (setupOk_base cc) ?_
    intro vs e _ hvs
    unfold add_edges_row
    refine foldl_preserves _ _ e.2 vs hvs ?_
    intro vs p _ hvs
    exact setupOk_add_edge cc e.1 p vs hvs
  have h2 : ∀ vs : List Vertex, SetupOk cc vs →
      SetupOk cc (if hu ∧ vs ≠ [] then modifyAt vs 0 Vertex.set_not_committed else vs) := by
    intro vs hvs
    split
    · exact (setupOk_flags cc vs 0 hvs).1
    · exact hvs
  have h3 : ∀ vs : List Vertex, SetupOk cc vs →
      SetupOk cc (match hi with
        | some h => if h < vs.length then modifyAt vs h Vertex.set_current else vs
        | none => vs) := by
    intro vs hvs
    cases hi with
    | none => exact hvs
    | some h =>
      dsimp only
      split
      · exact (setupOk_flags cc vs h hvs).2
      · exact hvs
  exact h3 _ (h2 _ h1)

theorem graphInv_of_setupOk (g : GraphBuilder) (hb : g.branches = [])
    (h31 : g.vertices.length < 2 ^ 31) (h : SetupOk g.vertices.length g.vertices) :
    GraphInv g := by
  refine ⟨h31, ?_, ?_⟩
  · intro k hk
    obtain ⟨h1, h2, h3, h4, h5⟩ := h.2 k hk
    have e2 : (g.vtx k).on_branch = none := h2
    have e3 : (g.vtx k).next_x = 0 := h3
    have e4 : (g.vtx k).connections = [] := h4
    refine ⟨h1, ⟨by rw [e3], by rw [e3, e4]; rfl⟩, ?_, ?_, h5⟩
    · intro b hbb
      rw [e2] at hbb
      cases hbb
    · intro b hbb
      rw [e2] at hbb
      cases hbb
  · rw [hb]
    intro b hbb
    cases hbb

theorem setup_branches (cc : Nat) (pm : List (Nat × List Int)) (hi : Option Nat)
    (hu : Bool) : (GraphBuilder.setup cc pm hi hu).branches = [] := by
  unfold GraphBuilder.setup
  split <;> rfl

/-- A freshly-loaded builder satisfies the run invariant (for any window
that the `i32` ids of the source could address). -/
theorem graphInv_setup (cc : Nat) (pm : List (Nat × List Int)) (hi : Option Nat)
    (hu : Bool) (h31 : cc < 2 ^ 31) : GraphInv (GraphBuilder.setup cc pm hi hu) := by
  by_cases hcc : cc = 0
  · subst hcc
    unfold GraphBuilder.setup
    rw [if_pos rfl]
    decide
  · have hS := setupOk_setup cc pm hi hu hcc
    refine graphInv_of_setupOk _ (setup_branches cc pm hi hu) ?_ ?_
    · rw [hS.1]
      exact h31
    · rw [hS.1]
      exact hS

/-! ## Progress of the dispatch loop -/

theorem find_connection_isSome (vid : Int) (ob : Nat) :
    ∀ (l : List UnavailablePoint) (s : Nat),
      (find_connection l vid ob s).isSome ↔
      ∃ n, n < l.length ∧ (l.getD n default).connects_to = vid ∧
        (l.getD n default).on_branch = ob := by
  intro l
  induction l with
  | nil =>
    intro s
    constructor
    · intro h
      cases h
    · intro ⟨n, hn, _⟩
      cases hn
  | cons c t ih =>
    intro s
    unfold find_connection
    by_cases hc : c.connects_to = vid ∧ c.on_branch = ob
    · rw [if_pos hc]
      constructor
      · intro _
        exact ⟨0, by simp, hc.1, hc.2⟩
      · intro _
        rfl
    · rw [if_neg hc]
      rw [ih (s + 1)]
      constructor
      · intro ⟨n, hn, h1, h2⟩
        exact ⟨n + 1, by simpa using hn, by simpa using h1, by simpa using h2⟩
      · intro ⟨n, hn, h1, h2⟩
        cases n with
        | zero =>
          exact absurd ⟨by simpa using h1, by simpa using h2⟩ hc
        | succ n =>
          exact ⟨n, by simpa using hn, by simpa using h1, by simpa using h2⟩

theorem get_point_connecting_to_isSome (v : Vertex) (vid : Int) (ob : Nat) :
    (v.get_point_connecting_to vid ob).isSome ↔
    ∃ n, n < v.connections.length ∧ (v.connections.getD n default).connects_to = vid ∧
      (v.connections.getD n default).on_branch = ob := by
  unfold Vertex.get_point_connecting_to
  rw [Option.isSome_map']
  exact find_connection_isSome vid ob v.connections 0

/-- A claimed vertex's self-reservation makes the merge-stitch search
succeed at that vertex's own row. -/
theorem self_res_found (g : GraphBuilder) (t : Nat) (pid : Int) (pb : Nat)
    (hInv : GraphInv g) (ht : t < g.vertices.length)
    (hob : (g.vtx t).on_branch = some pb) (hpid : pid = (t : Int)) :
    ((g.vtx t).get_point_connecting_to pid pb).isSome := by
  obtain ⟨hx0, hxlt, hslot⟩ := (hInv.2.1 t ht).2.2.1 pb hob
  obtain ⟨hD0, hDlen⟩ := (hInv.2.1 t ht).2.1
  rw [get_point_connecting_to_isSome]
  refine ⟨(g.vtx t).x.toNat, by omega, ?_, ?_⟩
  · rw [hslot, hpid]
  · rw [hslot]

theorem merge_walk_progress (sa : Nat) (pid : Int) (pb : Nat) (vc : Bool) :
    ∀ (fuel : Nat) (g : GraphBuilder) (i : Nat) (lp : Point),
      g.vertices.length ≤ i + fuel →
      sa < i →
      ((g.vtx sa).get_next_parent).isSome →
      (∃ t, i ≤ t ∧ t < g.vertices.length ∧
        ((g.vtx t).get_point_connecting_to pid pb).isSome) →
      (merge_walk sa pid pb vc fuel g i lp).mu < g.mu := by
  intro fuel
  induction fuel with
  | zero =>
    intro g i lp hfuel hsa hcur ⟨t, ht1, ht2, _⟩
    omega
  | succ fuel ih =>
    intro g i lp hfuel hsa hcur ⟨t, ht1, ht2, ht3⟩
    have hlt : i < g.vertices.length := by omega
    rw [merge_walk, if_pos hlt]
    cases hconn : (g.vtx i).get_point_connecting_to pid pb with
    | some cur =>
      dsimp only
      have hvs : ∀ k, k ≠ i → (((g.upd_branch pb fun b =>
          b.add_line lp cur vc false).upd_vertex i fun v =>
          v.register_unavailable_point cur.x pid pb).vtx k) = g.vtx k := by
        intro k hk
        rw [vtx_upd_vertex_ne _ _ _ _ fun h => hk h.symm, vtx_upd_branch]
      have hlen2 : (((g.upd_branch pb fun b => b.add_line lp cur vc false).upd_vertex i
          fun v => v.register_unavailable_point cur.x pid pb)).vertices.length =
          g.vertices.length := length_upd_vertex _ _ _
      have hstrict : ((((g.upd_branch pb fun b => b.add_line lp cur vc false).upd_vertex i
          fun v => v.register_unavailable_point cur.x pid pb)).upd_vertex sa
          Vertex.register_parent_processed).mu <
          (((g.upd_branch pb fun b => b.add_line lp cur vc false).upd_vertex i
          fun v => v.register_unavailable_point cur.x pid pb)).mu := by
        refine mu_upd_vertex_lt _ sa _ (by omega) ?_
        rw [hvs sa (by omega)]
        refine pending_rpp_lt _ ?_
        rw [← get_next_parent_isSome_iff]
        exact hcur
      calc ((((g.upd_branch pb _).upd_vertex i _).upd_vertex sa
              Vertex.register_parent_processed)).mu
          < (((g.upd_branch pb _).upd_vertex i _)).mu := hstrict
        _ ≤ (g.upd_branch pb _).mu := mu_upd_vertex_register _ _ _ _ _
        _ = g.mu := mu_upd_branch _ _ _
    | none =>
      dsimp only
      have hti : t ≠ i := by
        intro h
        rw [h] at ht3
        rw [hconn] at ht3
        cases ht3
      have hvs : ∀ k, k ≠ i → (((g.upd_branch pb fun b => b.add_line lp
          (g.vtx i).get_next_point vc (decide (¬ i = usize_of_i32 pid ∧
            lp.x < (g.vtx i).get_next_point.x))).upd_vertex i fun v =>
          v.register_unavailable_point (g.vtx i).get_next_point.x pid pb).vtx k) =
          g.vtx k := by
        intro k hk
        rw [vtx_upd_vertex_ne _ _ _ _ fun h => hk h.symm, vtx_upd_branch]
      have hstep := ih (((g.upd_branch pb fun b => b.add_line lp
          (g.vtx i).get_next_point vc (decide (¬ i = usize_of_i32 pid ∧
            lp.x < (g.vtx i).get_next_point.x))).upd_vertex i fun v =>
          v.register_unavailable_point (g.vtx i).get_next_point.x pid pb)) (i + 1)
          (g.vtx i).get_next_point ?_ (by omega) ?_ ?_
      · calc (merge_walk sa pid pb vc fuel _ (i + 1) _).mu
            < (((g.upd_branch pb _).upd_vertex i _)).mu := hstep
          _ ≤ (g.upd_branch pb _).mu := mu_upd_vertex_register _ _ _ _ _
          _ = g.mu := mu_upd_branch _ _ _
      · rw [length_upd_vertex]
        show g.vertices.length ≤ (i + 1) + fuel
        omega
      · rw [hvs sa (by omega)]
        exact hcur
      · refine ⟨t, by omega, ?_, ?_⟩
        · rw [length_upd_vertex]
          show t < g.vertices.length
          exact ht2
        · rw [hvs t hti]
          exact ht3

theorem normal_walk_progress_pos (bidx : Nat) :
    ∀ (fuel : Nat) (g : GraphBuilder) (vidx i : Nat) (lp : Point) (pid : Int),
      g.vertices.length ≤ i + fuel →
      vidx < i →
      (g.vtx vidx).get_next_parent = some pid →
      0 ≤ pid → pid < 2 ^ 31 →
      i ≤ pid.toNat → pid.toNat < g.vertices.length →
      (normal_walk bidx fuel g vidx i lp).1.mu < g.mu := by
  intro fuel
  induction fuel with
  | zero =>
    intro g vidx i lp pid hfuel hvi hp h0 h31 hle hlt
    omega
  | succ fuel ih =>
    intro g vidx i lp pid hfuel hvi hp h0 h31 hle hlt
    have hilt : i < g.vertices.length := by omega
    rw [normal_walk, if_pos hilt, hp]
    dsimp only
    generalize hcur : (if pid ≠ NULL_VERTEX_ID ∧ usize_of_i32 pid = i ∧
        (g.vtx i).is_not_on_branch = false
      then (g.vtx i).get_point else (g.vtx i).get_next_point) = cur
    have husize : usize_of_i32 pid = pid.toNat :=
      usize_of_i32_of_nonneg pid h0 (by omega)
    have hvs2 : ∀ k, k ≠ i → (((g.upd_branch bidx fun b => b.add_line lp cur
        (g.vtx vidx).is_committed (decide (lp.x < cur.x))).upd_vertex i fun v =>
        v.register_unavailable_point cur.x pid bidx).vtx k) = g.vtx k := by
      intro k hk
      rw [vtx_upd_vertex_ne _ _ _ _ fun h => hk h.symm, vtx_upd_branch]
    have hmu2 : (((g.upd_branch bidx fun b => b.add_line lp cur
        (g.vtx vidx).is_committed (decide (lp.x < cur.x))).upd_vertex i fun v =>
        v.register_unavailable_point cur.x pid bidx)).mu ≤ g.mu := by
      calc ((g.upd_branch bidx _).upd_vertex i _).mu
          ≤ (g.upd_branch bidx _).mu := mu_upd_vertex_register _ _ _ _ _
        _ = g.mu := mu_upd_branch _ _ _
    have hlen2 : (((g.upd_branch bidx fun b => b.add_line lp cur
        (g.vtx vidx).is_committed (decide (lp.x < cur.x))).upd_vertex i fun v =>
        v.register_unavailable_point cur.x pid bidx)).vertices.length =
        g.vertices.length := length_upd_vertex _ _ _
    by_cases heq : pid.toNat = i
    · rw [if_pos (show pid ≠ NULL_VERTEX_ID ∧ usize_of_i32 pid = i from
        ⟨by intro h; rw [h] at h0; exact absurd h0 (by decide),
         by rw [husize]; exact heq⟩)]
      have hmu3 : ((((g.upd_branch bidx fun b => b.add_line lp cur
          (g.vtx vidx).is_committed (decide (lp.x < cur.x))).upd_vertex i fun v =>
          v.register_unavailable_point cur.x pid bidx)).upd_vertex vidx
          Vertex.register_parent_processed).mu <
          (((g.upd_branch bidx fun b => b.add_line lp cur
          (g.vtx vidx).is_committed (decide (lp.x < cur.x))).upd_vertex i fun v =>
          v.register_unavailable_point cur.x pid bidx)).mu := by
        refine mu_upd_vertex_lt _ vidx _ (by rw [hlen2]; omega) ?_
        rw [hvs2 vidx (by omega)]
        refine pending_rpp_lt _ ?_
        rw [← get_next_parent_isSome_iff, hp]
        rfl
      have hmu4 : ((((((g.upd_branch bidx fun b => b.add_line lp cur
          (g.vtx vidx).is_committed (decide (lp.x < cur.x))).upd_vertex i fun v =>
          v.register_unavailable_point cur.x pid bidx)).upd_vertex vidx
          Vertex.register_parent_processed)).upd_vertex i fun v =>
          v.add_to_branch bidx cur.x).mu < g.mu := by
        calc (((_ : GraphBuilder).upd_vertex i fun v => v.add_to_branch bidx cur.x)).mu
            ≤ _ := mu_upd_vertex_add_to_branch _ _ _ _
          _ < _ := hmu3
          _ ≤ g.mu := hmu2
      split
      · exact hmu4
      · exact lt_of_le_of_lt (normal_walk_pres_mu bidx fuel _ i (i + 1) cur).2 hmu4
    · rw [if_neg (show ¬(pid ≠ NULL_VERTEX_ID ∧ usize_of_i32 pid = i) from
        by intro hc; rw [husize] at hc; exact heq hc.2)]
      refine lt_of_lt_of_le (ih _ vidx (i + 1) cur pid ?_ (by omega) ?_ h0 h31
        (by omega) ?_) hmu2
      · rw [hlen2]
        omega
      · rw [hvs2 vidx (by omega)]
        exact hp
      · rw [hlen2]
        exact hlt

theorem normal_walk_null (bidx : Nat) :
    ∀ (fuel : Nat) (g : GraphBuilder) (vidx i : Nat) (lp : Point),
      g.vertices.length ≤ i + fuel →
      i ≤ g.vertices.length →
      vidx < i →
      (g.vtx vidx).get_next_parent = some NULL_VERTEX_ID →
      (normal_walk bidx fuel g vidx i lp).2.1 =
          (normal_walk bidx fuel g vidx i lp).1.vertices.length ∧
        (normal_walk bidx fuel g vidx i lp).2.2 = vidx ∧
        (normal_walk bidx fuel g vidx i lp).1.vtx vidx = g.vtx vidx ∧
        (normal_walk bidx fuel g vidx i lp).1.mu ≤ g.mu ∧
        (normal_walk bidx fuel g vidx i lp).1.vertices.length = g.vertices.length := by
  intro fuel
  induction fuel with
  | zero =>
    intro g vidx i lp hfuel hile hvi hp
    have : i = g.vertices.length := by omega
    exact ⟨this, rfl, rfl, le_refl _, rfl⟩
  | succ fuel ih =>
    intro g vidx i lp hfuel hile hvi hp
    rw [normal_walk]
    by_cases hilt : i < g.vertices.length
    · rw [if_pos hilt, hp]
      dsimp only
      generalize hcur : (if NULL_VERTEX_ID ≠ NULL_VERTEX_ID ∧
          usize_of_i32 NULL_VERTEX_ID = i ∧ (g.vtx i).is_not_on_branch = false
        then (g.vtx i).get_point else (g.vtx i).get_next_point) = cur
      rw [if_neg (by intro hc; exact hc.1 rfl)]
      have hvs2 : ∀ k, k ≠ i → (((g.upd_branch bidx fun b => b.add_line lp cur
          (g.vtx vidx).is_committed (decide (lp.x < cur.x))).upd_vertex i fun v =>
          v.register_unavailable_point cur.x NULL_VERTEX_ID bidx).vtx k) = g.vtx k := by
        intro k hk
        rw [vtx_upd_vertex_ne _ _ _ _ fun h => hk h.symm, vtx_upd_branch]
      have hlen2 : (((g.upd_branch bidx fun b => b.add_line lp cur
          (g.vtx vidx).is_committed (decide (lp.x < cur.x))).upd_vertex i fun v =>
          v.register_unavailable_point cur.x NULL_VERTEX_ID bidx)).vertices.length =
          g.vertices.length := length_upd_vertex _ _ _
    
      obtain ⟨e1, e2, e3, e4, e5⟩ := ih (((g.upd_branch bidx fun b => b.add_line lp cur
          (g.vtx vidx).is_committed (decide (lp.x < cur.x))).upd_vertex i fun v =>
          v.register_unavailable_point cur.x NULL_VERTEX_ID bidx)) vidx (i + 1) cur
        (by rw [hlen2]; omega) (by rw [hlen2]; omega) (by omega)
        (by rw [hvs2 vidx (by omega)]; exact hp)
      refine ⟨e1, e2, ?_, ?_, ?_⟩
      · rw [e3, hvs2 vidx (by omega)]
      · refine le_trans e4 ?_
        calc ((g.upd_branch bidx _).upd_vertex i _).mu
            ≤ (g.upd_branch bidx _).mu := mu_upd_vertex_register _ _ _ _ _
          _ = g.mu := mu_upd_branch _ _ _
      · rw [e5, hlen2]
    · rw [if_neg hilt]
      have : i = g.vertices.length := by omega
      exact ⟨this, rfl, rfl, le_refl _, rfl⟩

theorem get_next_parent_register (v : Vertex) (x ct : Int) (ob : Nat) :
    (v.register_unavailable_point x ct ob).get_next_parent = v.get_next_parent := by
  unfold Vertex.get_next_parent
  rw [parents_register, next_parent_register]

theorem get_next_parent_add_to_branch (v : Vertex) (b : Nat) (x : Int) :
    (v.add_to_branch b x).get_next_parent = v.get_next_parent := by
  unfold Vertex.get_next_parent
  rw [parents_add_to_branch, next_parent_add_to_branch]

theorem normal_path_finish_progress (colour bidx : Nat) (r : GraphBuilder × Nat × Nat)
    (hi : r.2.1 = r.1.vertices.length)
    (hvp : (r.1.vtx r.2.2).get_next_parent = some NULL_VERTEX_ID)
    (hlt : r.2.2 < r.1.vertices.length) :
    (normal_path_finish colour bidx r).mu < r.1.mu := by
  unfold normal_path_finish
  dsimp only
  rw [if_pos hi, hvp]
  dsimp only
  rw [if_pos rfl]
  have hstrict : ((r.1.upd_vertex r.2.2 Vertex.register_parent_processed)).mu < r.1.mu := by
    refine mu_upd_vertex_lt _ _ _ hlt (pending_rpp_lt _ ?_)
    rw [← get_next_parent_isSome_iff, hvp]
    rfl
  calc ({ (r.1.upd_vertex r.2.2 Vertex.register_parent_processed).upd_branch bidx
          (fun b => b.set_end r.2.1) with
        available_colours := ((r.1.upd_vertex r.2.2
          Vertex.register_parent_processed).upd_branch bidx
          fun b => b.set_end r.2.1).available_colours.set colour r.2.1 } :
        GraphBuilder).mu
      = (r.1.upd_vertex r.2.2 Vertex.register_parent_processed).mu := rfl
    _ < r.1.mu := hstrict

/-- A `handle_normal_path` call on a vertex not yet on a branch strictly
decreases the progress measure (the vertex gets claimed). -/
theorem hnp_progress_unclaimed (g : GraphBuilder) (sa : Nat) (lp : Point)
    (hsa : sa < g.vertices.length) (hnone : (g.vtx sa).on_branch = none) :
    (g.handle_normal_path sa lp).mu < g.mu := by
  unfold GraphBuilder.handle_normal_path
  dsimp only
  obtain ⟨hV, _⟩ := get_available_colour_skeleton g sa
  obtain ⟨_, hm1⟩ := get_available_colour_pres g sa
  generalize hC : (g.get_available_colour sa).1 = colour at *
  generalize hG1 : (g.get_available_colour sa).2 = g1 at *
  have hm2 : ({ g1 with branches := g1.branches ++ [Branch.new colour] } :
      GraphBuilder).mu = g1.mu := mu_push_branch g1 _
  have hveq2 : ({ g1 with branches := g1.branches ++ [Branch.new colour] } :
      GraphBuilder).vertices = g.vertices := hV
  generalize hG2 : ({ g1 with branches := g1.branches ++ [Branch.new colour] } :
      GraphBuilder) = g2 at *
  have hvtx2 : g2.vtx sa = g.vtx sa := by
    unfold GraphBuilder.vtx
    rw [hveq2]
  have hstrict : (g2.upd_vertex sa fun v => v.add_to_branch g1.branches.length lp.x).mu
      < g2.mu := by
    refine mu_upd_vertex_lt g2 sa _ ?_ ?_
    · rw [show g2.vertices.length = g.vertices.length from by rw [hveq2]]
      exact hsa
    · rw [hvtx2]
      exact pending_add_to_branch_lt _ _ _ (by simp [hnone])
  generalize hG3 : (g2.upd_vertex sa fun v => v.add_to_branch g1.branches.length lp.x)
      = g3 at *
  have hm4 : (g3.upd_vertex sa fun v =>
      v.register_unavailable_point lp.x (g2.vtx sa).id g1.branches.length).mu ≤ g3.mu :=
    mu_upd_vertex_register g3 sa lp.x _ _
  generalize hG4 : (g3.upd_vertex sa fun v =>
      v.register_unavailable_point lp.x (g2.vtx sa).id g1.branches.length) = g4 at *
  obtain ⟨_, hmw⟩ :=
    normal_walk_pres_mu g1.branches.length g4.vertices.length g4 sa (sa + 1) lp
  obtain ⟨_, hmf⟩ := normal_path_finish_pres_mu colour g1.branches.length
    (normal_walk g1.branches.length g4.vertices.length g4 sa (sa + 1) lp)
  calc (normal_path_finish colour g1.branches.length
        (normal_walk g1.branches.length g4.vertices.length g4 sa (sa + 1) lp)).mu
      ≤ (normal_walk g1.branches.length g4.vertices.length g4 sa (sa + 1) lp).1.mu := hmf
    _ ≤ g4.mu := hmw
    _ ≤ g3.mu := hm4
    _ < g2.mu := hstrict
    _ = g1.mu := hm2
    _ = g.mu := hm1

/-- A `handle_normal_path` call whose start vertex still has an unconsumed
parent that is NULL or lies strictly below it strictly decreases the
progress measure (that parent edge gets consumed). -/
theorem hnp_progress_parent (g : GraphBuilder) (sa : Nat) (lp : Point) (pid : Int)
    (hsa : sa < g.vertices.length)
    (hp : (g.vtx sa).get_next_parent = some pid)
    (hvalid : pid = NULL_VERTEX_ID ∨
      (0 ≤ pid ∧ pid < 2 ^ 31 ∧ sa < pid.toNat ∧ pid.toNat < g.vertices.length)) :
    (g.handle_normal_path sa lp).mu < g.mu := by
  unfold GraphBuilder.handle_normal_path
  dsimp only
  obtain ⟨hV, _⟩ := get_available_colour_skeleton g sa
  obtain ⟨_, hm1⟩ := get_available_colour_pres g sa
  generalize hC : (g.get_available_colour sa).1 = colour at *
  generalize hG1 : (g.get_available_colour sa).2 = g1 at *
  have hm2 : ({ g1 with branches := g1.branches ++ [Branch.new colour] } :
      GraphBuilder).mu = g1.mu := mu_push_branch g1 _
  have hveq2 : ({ g1 with branches := g1.branches ++ [Branch.new colour] } :
      GraphBuilder).vertices = g.vertices := hV
  generalize hG2 : ({ g1 with branches := g1.branches ++ [Branch.new colour] } :
      GraphBuilder) = g2 at *
  have hm3 : (g2.upd_vertex sa fun v => v.add_to_branch g1.branches.length lp.x).mu
      ≤ g2.mu := mu_upd_vertex_add_to_branch g2 sa _ lp.x
  have hveq3 : (g2.upd_vertex sa fun v =>
      v.add_to_branch g1.branches.length lp.x).vertices.length = g.vertices.length := by
    rw [length_upd_vertex]
    rw [hveq2]
  have hvtx3 : ∀ k, ((g2.upd_vertex sa fun v =>
      v.add_to_branch g1.branches.length lp.x).vtx k).get_next_parent =
      (g.vtx k).get_next_parent := by
    intro k
    by_cases hk : sa = k
    · subst hk
      by_cases hlt : sa < g2.vertices.length
      · rw [vtx_upd_vertex_self _ _ _ hlt, get_next_parent_add_to_branch]
        unfold GraphBuilder.vtx
        rw [hveq2]
      · rw [vtx_upd_vertex_oob _ _ _ (Nat.le_of_not_lt hlt)]
        unfold GraphBuilder.vtx
        rw [hveq2]
    · rw [vtx_upd_vertex_ne _ _ _ _ hk]
      unfold GraphBuilder.vtx
      rw [hveq2]
  generalize hG3 : (g2.upd_vertex sa fun v => v.add_to_branch g1.branches.length lp.x)
      = g3 at *
  have hm4 : (g3.upd_vertex sa fun v =>
      v.register_unavailable_point lp.x (g2.vtx sa).id g1.branches.length).mu ≤ g3.mu :=
    mu_upd_vertex_register g3 sa lp.x _ _
  have hveq4 : (g3.upd_vertex sa fun v =>
      v.register_unavailable_point lp.x (g2.vtx sa).id
        g1.branches.length).vertices.length = g.vertices.length := by
    rw [length_upd_vertex]
    exact hveq3
  have hvtx4 : ∀ k, ((g3.upd_vertex sa fun v =>
      v.register_unavailable_point lp.x (g2.vtx sa).id g1.branches.length).vtx
        k).get_next_parent = (g.vtx k).get_next_parent := by
    intro k
    by_cases hk : sa = k
    · subst hk
      by_cases hlt : sa < g3.vertices.length
      · rw [vtx_upd_vertex_self _ _ _ hlt, get_next_parent_register]
        exact hvtx3 sa
      · rw [vtx_upd_vertex_oob _ _ _ (Nat.le_of_not_lt hlt)]
        exact hvtx3 sa
    · rw [vtx_upd_vertex_ne _ _ _ _ hk]
      exact hvtx3 k
  generalize hG4 : (g3.upd_vertex sa fun v =>
      v.register_unavailable_point lp.x (g2.vtx sa).id g1.branches.length) = g4 at *
  obtain ⟨_, hmf⟩ := normal_path_finish_pres_mu colour g1.branches.length
    (normal_walk g1.branches.length g4.vertices.length g4 sa (sa + 1) lp)
  rcases hvalid with hnull | ⟨h0, h31, hgt, hlt⟩
  · subst hnull
    obtain ⟨e1, e2, e3, e4, e5⟩ := normal_walk_null g1.branches.length
      g4.vertices.length g4 sa (sa + 1) lp (by omega)
      (by rw [hveq4]; omega) (Nat.lt_succ_self sa)
      (by rw [hvtx4 sa]; exact hp)
    have hfin := normal_path_finish_progress colour g1.branches.length
      (normal_walk g1.branches.length g4.vertices.length g4 sa (sa + 1) lp) e1 ?_ ?_
    · calc (normal_path_finish colour g1.branches.length
            (normal_walk g1.branches.length g4.vertices.length g4 sa (sa + 1) lp)).mu
          < (normal_walk g1.branches.length g4.vertices.length g4 sa (sa + 1) lp).1.mu :=
            hfin
        _ ≤ g4.mu := (normal_walk_pres_mu _ _ _ _ _ _).2
        _ ≤ g3.mu := hm4
        _ ≤ g2.mu := hm3
        _ = g1.mu := hm2
        _ = g.mu := hm1
    · rw [e2, e3, hvtx4 sa]
      exact hp
    · rw [e2, e5, hveq4]
      exact hsa
  · have hwalk := normal_walk_progress_pos g1.branches.length g4.vertices.length g4
      sa (sa + 1) lp pid (by omega) (Nat.lt_succ_self sa)
      (by rw [hvtx4 sa]; exact hp) h0 h31 (by omega) (by rw [hveq4]; omega)
    calc (normal_path_finish colour g1.branches.length
          (normal_walk g1.branches.length g4.vertices.length g4 sa (sa + 1) lp)).mu
        ≤ (normal_walk g1.branches.length g4.vertices.length g4 sa (sa + 1) lp).1.mu :=
          hmf
      _ < g4.mu := hwalk
      _ ≤ g3.mu := hm4
      _ ≤ g2.mu := hm3
      _ = g1.mu := hm2
      _ = g.mu := hm1

/-- All stored parent references point strictly downwards (the topological
order git guarantees for its commit list) and stay inside the window. -/
def ForwardOk (g : GraphBuilder) : Prop :=
  ∀ k, k < g.vertices.length → ∀ p ∈ (g.vtx k).parents,
    p = NULL_VERTEX_ID ∨ ((k : Int) < p ∧ p.toNat < g.vertices.length)

instance (g : GraphBuilder) : Decidable (ForwardOk g) := by
  unfold ForwardOk
  infer_instance

theorem forwardOk_pres (g g' : GraphBuilder) (hpres : Pres g g') (h : ForwardOk g) :
    ForwardOk g' := by
  intro k hk p hp
  rw [hpres.1] at hk
  rw [(hpres.2.2 k).2.1] at hp
  rw [hpres.1]
  exact h k hk p hp

/-- Any `determine_path` call the dispatch loop makes (on a row that still
has an unconsumed parent or no branch) strictly decreases the progress
measure, provided parents point downwards. -/
theorem dp_progress (g : GraphBuilder) (i : Nat) (hInv : GraphInv g) (hFwd : ForwardOk g)
    (hlt : i < g.vertices.length)
    (hguard : ((g.vtx i).get_next_parent).isSome ∨ (g.vtx i).is_not_on_branch) :
    (g.determine_path i).mu < g.mu := by
  unfold GraphBuilder.determine_path
  dsimp only
  cases hp : (g.vtx i).get_next_parent with
  | none =>
    have hnone : (g.vtx i).on_branch = none := by
      rcases hguard with hg | hg
      · rw [hp] at hg
        cases hg
    
      · exact Option.isNone_iff_eq_none.mp hg
    exact hnp_progress_unclaimed g i _ hlt hnone
  | some pid =>
    dsimp only
    have hmem := mem_parents_of_next_parent hp
    have hPP := hFwd i hlt pid hmem
    split
    · rename_i hcond
      obtain ⟨hne, _hmerge, _hnob1, hnob2⟩ := hcond
      rcases hPP with hnull | ⟨hgt, hltp⟩
      · exact absurd hnull hne
      have h0 : 0 ≤ pid := le_trans (Int.natCast_nonneg i) (le_of_lt hgt)
      have h31 : pid < 2 ^ 31 := by
        have h1 := hInv.1
        omega
      have husize : usize_of_i32 pid = pid.toNat :=
        usize_of_i32_of_nonneg pid h0 (by omega)
      have hsome : ((g.vtx (usize_of_i32 pid)).on_branch).isSome := by
        unfold Vertex.is_not_on_branch at hnob2
        cases ho : (g.vtx (usize_of_i32 pid)).on_branch with
        | none =>
          rw [ho] at hnob2
          exact Bool.noConfusion hnob2
        | some b => rfl
      obtain ⟨pb, hpb⟩ := Option.isSome_iff_exists.mp hsome
      unfold GraphBuilder.handle_merge_path
      refine merge_walk_progress i pid _ _ g.vertices.length g (i + 1) _ (by omega)
        (Nat.lt_succ_self i) (by rw [hp]; rfl) ?_
      refine ⟨pid.toNat, by omega, by omega, ?_⟩
      have hgetD : (g.vtx (usize_of_i32 pid)).on_branch.getD 0 = pb := by
        rw [hpb]
        rfl
      have hpb' : (g.vtx pid.toNat).on_branch = some pb := by
        rw [← husize]
        exact hpb
      rw [hgetD]
      exact self_res_found g pid.toNat pid pb hInv (by omega) hpb'
        (by rw [Int.toNat_of_nonneg h0])
    · exact hnp_progress_parent g i _ pid hlt hp (by
        rcases hPP with hnull | ⟨hgt, hltp⟩
        · exact Or.inl hnull
        · have h0 : 0 ≤ pid := le_trans (Int.natCast_nonneg i) (le_of_lt hgt)
          have h1 := hInv.1
          refine Or.inr ⟨h0, by omega, by omega, hltp⟩)

/-- The dispatch loop finishes once the fuel covers the remaining progress
measure plus the remaining rows, and its result satisfies the invariant. -/
theorem load_loop_total : ∀ (n : Nat) (g : GraphBuilder) (i : Nat),
    GraphInv g → ForwardOk g → g.mu + (g.vertices.length - i) ≤ n →
    ∃ g', load_loop g i n = some g' ∧ GraphInv g' ∧
      g'.vertices.length = g.vertices.length := by
  intro n
  induction n with
  | zero =>
    intro g i hI hF hb
    rw [load_loop]
    rw [if_neg (by omega)]
    exact ⟨g, rfl, hI, rfl⟩
  | succ n ih =>
    intro g i hI hF hb
    rw [load_loop]
    by_cases hlt : i < g.vertices.length
    · rw [if_pos hlt]
      by_cases hguard : ((g.vtx i).get_next_parent).isSome ∨ (g.vtx i).is_not_on_branch
      · rw [if_pos hguard]
        have hpres := (dp_pres_mu g i).1
        have hmu := dp_progress g i hI hF hlt hguard
        obtain ⟨g', h1, h2, h3⟩ := ih (g.determine_path i) i (dp_inv g i hI hlt)
          (forwardOk_pres g _ hpres hF) (by rw [hpres.1]; omega)
        exact ⟨g', h1, h2, by rw [h3, hpres.1]⟩
      · rw [if_neg hguard]
        exact ih g (i + 1) hI hF (by omega)
    · rw [if_neg hlt]
      exact ⟨g, rfl, hI, rfl⟩

/-- Whenever the dispatch loop completes, the invariant carries over to the
final state. -/
theorem load_loop_inv : ∀ (n : Nat) (g : GraphBuilder) (i : Nat) (g' : GraphBuilder),
    GraphInv g → load_loop g i n = some g' → GraphInv g' := by
  intro n
  induction n with
  | zero =>
    intro g i g' hI h
    rw [load_loop] at h
    by_cases hlt : i < g.vertices.length
    · rw [if_pos hlt] at h
      cases h
    · rw [if_neg hlt] at h
      injection h with h
      exact h ▸ hI
  | succ n ih =>
    intro g i g' hI h
    rw [load_loop] at h
    by_cases hlt : i < g.vertices.length
    · rw [if_pos hlt] at h
      by_cases hguard : ((g.vtx i).get_next_parent).isSome ∨ (g.vtx i).is_not_on_branch
      · rw [if_pos hguard] at h
        exact ih _ i g' (dp_inv g i hI hlt) h
      · rw [if_neg hguard] at h
        exact ih g (i + 1) g' hI h
    · rw [if_neg hlt] at h
      injection h with h
      exact h ▸ hI

/-- Per-vertex form of `ForwardOk`. -/
def FwdVOk (cc : Nat) (v : Vertex) (k : Nat) : Prop :=
  ∀ p ∈ v.parents, p = NULL_VERTEX_ID ∨ ((k : Int) < p ∧ p.toNat < cc)

theorem pointwise_modifyAt (cc : Nat) (P : Vertex → Nat → Prop) (vs : List Vertex)
    (j : Nat) (f : Vertex → Vertex)
    (hlen : vs.length = cc) (h : ∀ k, k < cc → P (vs.getD k default) k)
    (hf : j < cc → P (vs.getD j default) j → P (f (vs.getD j default)) j) :
    (modifyAt vs j f).length = cc ∧
      ∀ k, k < cc → P ((modifyAt vs j f).getD k default) k := by
  refine ⟨by rw [length_modifyAt]; exact hlen, ?_⟩
  intro k hk
  by_cases hjk : j = k
  · subst hjk
    rw [getD_modifyAt_self _ _ _ _ (by rw [hlen]; exact hk)]
    exact hf hk (h j hk)
  · rw [getD_modifyAt_ne _ _ _ _ _ hjk]
    exact h k hk

theorem setup_forward (cc : Nat) (pm : List (Nat × List Int)) (hi : Option Nat)
    (hu : Bool)
    (hpm : ∀ e ∈ pm, ∀ p ∈ e.2, p = NULL_VERTEX_ID ∨ ((e.1 : Int) < p ∧ p.toNat < cc)) :
    ForwardOk (GraphBuilder.setup cc pm hi hu) := by
  by_cases hcc : cc = 0
  · subst hcc
    unfold GraphBuilder.setup
    rw [if_pos rfl]
    intro k hk
    cases hk
  have key : (GraphBuilder.setup cc pm hi hu).vertices.length = cc ∧
      ∀ k, k < cc → FwdVOk cc ((GraphBuilder.setup cc pm hi hu).vertices.getD k default)
        k := by
    unfold GraphBuilder.setup
    rw [if_neg hcc]
    dsimp only
    have hbase : ((List.range cc).map fun i : Nat => Vertex.new (i : Int)).length = cc ∧
        ∀ k, k < cc → FwdVOk cc
          (((List.range cc).map fun i : Nat => Vertex.new (i : Int)).getD k default)
          k := by
      refine ⟨(setupOk_base cc).1, ?_⟩
      intro k hk p hp
      obtain ⟨_, _, _, _, hP⟩ := (setupOk_base cc).2 k hk
      rcases hP p hp with h | h
      · exact Or.inl h
      · exact absurd hp (by
          have hpar : (((List.range cc).map fun i : Nat =>
              Vertex.new (i : Int)).getD k default).parents = [] := by
            have hk' : k < ((List.range cc).map fun i : Nat =>
                Vertex.new (i : Int)).length := by
              rw [List.length_map, List.length_range]
              exact hk
            rw [List.getD_eq_getElem _ _ hk', List.getElem_map]
            rfl
          rw [hpar]
          exact List.not_mem_nil p)
    have hfold : (pm.foldl (fun vs e => add_edges_row vs cc e.1 e.2)
        ((List.range cc).map fun i : Nat => Vertex.new (i : Int))).length = cc ∧
        ∀ k, k < cc → FwdVOk cc ((pm.foldl (fun vs e => add_edges_row vs cc e.1 e.2)
          ((List.range cc).map fun i : Nat =>
            Vertex.new (i : Int))).getD k default) k := by
      refine foldl_preserves
        (fun vs => vs.length = cc ∧ ∀ k, k < cc → FwdVOk cc (vs.getD k default) k)
        (fun vs e => add_edges_row vs cc e.1 e.2) pm _ hbase ?_
      intro vs e he hvs
      unfold add_edges_row
      refine foldl_preserves
        (fun vs => vs.length = cc ∧ ∀ k, k < cc → FwdVOk cc (vs.getD k default) k)
        (fun vs p => add_edge vs cc e.1 p) e.2 vs hvs ?_
      intro vs p hp hvs
      unfold add_edge
      dsimp only
      split
      · rename_i hv
        have hadd : e.1 < cc → FwdVOk cc (vs.getD e.1 default) e.1 →
            FwdVOk cc ((vs.getD e.1 default).add_parent p) e.1 := by
          intro hj hF q hq
          rcases List.mem_append.mp hq with hq | hq
          · exact hF q hq
          · rw [List.mem_singleton.mp hq]
            rcases hpm e he p hp with hnull | hok
            · rw [hnull] at hv
              exact absurd hv.1 (by decide)
            · exact Or.inr hok
        obtain ⟨h1, h2⟩ := pointwise_modifyAt cc (FwdVOk cc) vs e.1
          (fun v => v.add_parent p) hvs.1 hvs.2 hadd
        exact pointwise_modifyAt cc (FwdVOk cc) _ p.toNat
          (fun v => v.add_child (e.1 : Int)) h1 h2 fun _ hF => fun q hq => hF q hq
      · split
        · exact pointwise_modifyAt cc (FwdVOk cc) vs e.1 _ hvs.1 hvs.2
            fun hj hF q hq => by
              rcases List.mem_append.mp hq with hq | hq
              · exact hF q hq
              · rw [List.mem_singleton.mp hq]
                exact Or.inl rfl
        · exact hvs
    have hflag1 : ∀ vs : List Vertex,
        (vs.length = cc ∧ ∀ k, k < cc → FwdVOk cc (vs.getD k default) k) →
        ((if hu ∧ vs ≠ [] then modifyAt vs 0 Vertex.set_not_committed
          else vs).length = cc ∧
        ∀ k, k < cc → FwdVOk cc ((if hu ∧ vs ≠ [] then
          modifyAt vs 0 Vertex.set_not_committed else vs).getD k default) k) := by
      intro vs hvs
      split
      · exact pointwise_modifyAt cc (FwdVOk cc) vs 0 _ hvs.1 hvs.2
          fun _ hF => fun q hq => hF q hq
      · exact hvs
    have hflag2 : ∀ vs : List Vertex,
        (vs.length = cc ∧ ∀ k, k < cc → FwdVOk cc (vs.getD k default) k) →
        ((match hi with
          | some h => if h < vs.length then modifyAt vs h Vertex.set_current else vs
          | none => vs).length = cc ∧
        ∀ k, k < cc → FwdVOk cc ((match hi with
          | some h => if h < vs.length then modifyAt vs h Vertex.set_current else vs
          | none => vs).getD k default) k) := by
      intro vs hvs
      cases hi with
      | none => exact hvs
      | some h =>
        dsimp only
        split
        · exact pointwise_modifyAt cc (FwdVOk cc) vs h _ hvs.1 hvs.2
            fun _ hF => fun q hq => hF q hq
        · exact hvs
    exact hflag2 _ (hflag1 _ hfold)
  intro k hk p hp
  rw [key.1] at hk
  have := key.2 k hk p hp
  rw [key.1]
  exact this

/-! ## Colour allocation -/

theorem find_colour_none (s : Nat) :
    ∀ (l : List Nat) (i : Nat), find_colour l s i = none ↔ ∀ e ∈ l, ¬ s > e := by
  intro l
  induction l with
  | nil =>
    intro i
    constructor
    · intro _ e he
      cases he
    · intro _
      rfl
  | cons e t ih =>
    intro i
    unfold find_colour
    by_cases hc : s > e
    · rw [if_pos hc]
      constructor
      · intro h
        cases h
      · intro h
        exact absurd hc (h e (List.mem_cons_self e t))
    · rw [if_neg hc]
      rw [ih (i + 1)]
      constructor
      · intro h q hq
        rcases List.mem_cons.mp hq with rfl | hq
        · exact hc
        · exact h q hq
      · intro h q hq
        exact h q (List.mem_cons_of_mem _ hq)

theorem find_colour_some (s : Nat) :
    ∀ (l : List Nat) (i j : Nat), find_colour l s i = some j →
      i ≤ j ∧ j - i < l.length ∧ s > l.getD (j - i) 0 ∧
        ∀ m, m < j - i → ¬ s > l.getD m 0 := by
  intro l
  induction l with
  | nil =>
    intro i j h
    cases h
  | cons e t ih =>
    intro i j h
    unfold find_colour at h
    by_cases hc : s > e
    · rw [if_pos hc] at h
      injection h with h
      subst h
      refine ⟨le_refl i, by simp, by simpa using hc, ?_⟩
      intro m hm
      omega
    · rw [if_neg hc] at h
      obtain ⟨h1, h2, h3, h4⟩ := ih (i + 1) j h
      refine ⟨by omega, by simp; omega, ?_, ?_⟩
      · have : j - i = (j - (i + 1)) + 1 := by omega
        rw [this]
        simpa using h3
      · intro m hm
        cases m with
        | zero => simpa using hc
        | succ m =>
          have := h4 m (by omega)
          simpa using this

/-! ## Geometry generation (`generate_svg_paths`) -/

/-- One drawable piece of an SVG path string.  The numeric coordinate
parameters are exact rationals; the `f32` arithmetic of the source rounds
some control-point ordinates, which affects only the numeric values inside
a piece and never which kind of piece is emitted. -/
inductive SvgPiece where
  | seg (x1 y1 x2 y2 : ℚ)
  | curve (x1 y1 c1x c1y c2x c2y x2 y2 : ℚ)
  | circle (cx cy r : ℚ)
deriving Repr, DecidableEq

def SvgPiece.isCurve : SvgPiece → Bool
  | curve _ _ _ _ _ _ _ _ => true
  | _ => false

def COL_SPACING : ℚ := 16
def ROW_HEIGHT : ℚ := 28
def NODE_CENTER_Y : ℚ := ROW_HEIGHT / 2
def CURVE_OFFSET : ℚ := ROW_HEIGHT * (4 / 5)
def NODE_RADIUS : ℚ := 4

/-- `GraphBuilder::draw_curve_segment` (src lines 844-890): the piece a
cross-lane line contributes at one of its endpoint rows. -/
def draw_curve_segment (line : Line) (row : Nat) : List SvgPiece :=
  let x1 : ℚ := (line.p1.x : ℚ) * COL_SPACING + 7
  let x2 : ℚ := (line.p2.x : ℚ) * COL_SPACING + 7
  if usize_of_i32 line.p1.y = row then
    if line.locked_first then
      [SvgPiece.curve x1 NODE_CENTER_Y x1
        (NODE_CENTER_Y + min CURVE_OFFSET (ROW_HEIGHT - NODE_CENTER_Y))
        x2 ROW_HEIGHT x2 ROW_HEIGHT]
    else [SvgPiece.seg x1 NODE_CENTER_Y x1 ROW_HEIGHT]
  else if usize_of_i32 line.p2.y = row then
    if line.locked_first then [SvgPiece.seg x2 0 x2 NODE_CENTER_Y]
    else
      [SvgPiece.curve x1 0 x1 0 x2 (NODE_CENTER_Y - min CURVE_OFFSET NODE_CENTER_Y)
        x2 NODE_CENTER_Y]
  else []

/-- The per-line dispatch of `GraphBuilder::generate_svg_paths`
(src lines 777-816): which pieces one line contributes at a display row. -/
def line_pieces (line : Line) (row : Nat) : List SvgPiece :=
  if usize_of_i32 line.p1.y = row ∨ usize_of_i32 line.p2.y = row ∨
      (line.p1.y < (row : Int) ∧ line.p2.y > (row : Int)) then
    let x1 : ℚ := (line.p1.x : ℚ) * COL_SPACING + 7
    let y1 : ℚ := (line.p1.y : ℚ) * ROW_HEIGHT + NODE_CENTER_Y
    let x2 : ℚ := (line.p2.x : ℚ) * COL_SPACING + 7
    let y2 : ℚ := (line.p2.y : ℚ) * ROW_HEIGHT + NODE_CENTER_Y
    let row_top : ℚ := (row : ℚ) * ROW_HEIGHT
    let row_bottom : ℚ := row_top + ROW_HEIGHT
    if x1 = x2 then
      let draw_y1 := max y1 row_top
      let draw_y2 := min y2 row_bottom
      if draw_y1 < draw_y2 then
        [SvgPiece.seg x1 (draw_y1 - row_top) x1 (draw_y2 - row_top)]
      else []
    else
      if usize_of_i32 line.p1.y = row ∨ usize_of_i32 line.p2.y = row then
        draw_curve_segment line row
      else []
  else []

/-- `GraphBuilder::generate_svg_paths` (src lines 763-842): eight colour
buckets of line pieces plus the row's node marker. -/
def GraphBuilder.generate_svg_paths (g : GraphBuilder) (row : Nat) :
    List (List SvgPiece) × List SvgPiece :=
  let paths := g.branches.foldl
    (fun ps b =>
      modifyAt ps (b.get_colour % 8)
        fun bucket => bucket ++ b.lines.foldl (fun acc l => acc ++ line_pieces l row) [])
    (List.replicate 8 [])
  let node :=
    if row < g.vertices.length then
      [SvgPiece.circle ((g.vtx row).x * COL_SPACING + 7) NODE_CENTER_Y NODE_RADIUS]
    else []
  (paths, node)

theorem isCurve_draw_curve_segment (line : Line) (row : Nat) (p : SvgPiece)
    (hp : p ∈ draw_curve_segment line row) :
    usize_of_i32 line.p1.y = row ∨ usize_of_i32 line.p2.y = row := by
  unfold draw_curve_segment at hp
  dsimp only at hp
  by_cases h1 : usize_of_i32 line.p1.y = row
  · exact Or.inl h1
  · rw [if_neg h1] at hp
    by_cases h2 : usize_of_i32 line.p2.y = row
    · exact Or.inr h2
    · rw [if_neg h2] at hp
      cases hp

/-- A curve piece is only ever emitted at a row that is one of the line's
two endpoint rows. -/
theorem curve_only_at_endpoint_rows (line : Line) (row : Nat) (p : SvgPiece)
    (hp : p ∈ line_pieces line row) (hc : p.isCurve = true) :
    line.p1.x ≠ line.p2.x ∧
      (usize_of_i32 line.p1.y = row ∨ usize_of_i32 line.p2.y = row) := by
  unfold line_pieces at hp
  dsimp only at hp
  split at hp
  · split at hp
    · rename_i hx
      constructor
      · split at hp
        · rcases List.mem_singleton.mp hp with rfl
          cases hc
        · cases hp
      · split at hp
        · rcases List.mem_singleton.mp hp with rfl
          cases hc
        · cases hp
    · rename_i hx
      split at hp
      · refine ⟨?_, isCurve_draw_curve_segment line row p hp⟩
        intro he
        exact hx (by rw [he])
      · cases hp
  · cases hp

/-! ## The merge stitch stops at the first matching reservation -/

theorem branches_length_upd_vertex (g : GraphBuilder) (i : Nat) (f : Vertex → Vertex) :
    (g.upd_vertex i f).branches.length = g.branches.length := rfl

theorem getD_branches_upd_branch_self (g : GraphBuilder) (i : Nat) (f : Branch → Branch)
    (h : i < g.branches.length) :
    (g.upd_branch i f).branches.getD i default = f (g.branches.getD i default) :=
  getD_modifyAt_self _ _ _ _ h

theorem walk_found_vtx_sa (g : GraphBuilder) (pb i sa : Nat) (f1 : Branch → Branch)
    (f2 f3 : Vertex → Vertex) (hsa : sa < g.vertices.length) (hne : i ≠ sa) :
    (((g.upd_branch pb f1).upd_vertex i f2).upd_vertex sa f3).vtx sa = f3 (g.vtx sa) := by
  have h1 : ((g.upd_branch pb f1).upd_vertex i f2).vtx sa = g.vtx sa := by
    rw [vtx_upd_vertex_ne _ _ _ _ hne, vtx_upd_branch]
  have h2 : sa < ((g.upd_branch pb f1).upd_vertex i f2).vertices.length := by
    rw [length_upd_vertex, vertices_upd_branch]
    exact hsa
  rw [vtx_upd_vertex_self _ _ _ h2, h1]

theorem walk_found_vtx_other (g : GraphBuilder) (pb i sa u : Nat) (f1 : Branch → Branch)
    (f2 f3 : Vertex → Vertex) (h1 : i ≠ u) (h2 : sa ≠ u) :
    (((g.upd_branch pb f1).upd_vertex i f2).upd_vertex sa f3).vtx u = g.vtx u := by
  rw [vtx_upd_vertex_ne _ _ _ _ h2, vtx_upd_vertex_ne _ _ _ _ h1, vtx_upd_branch]

theorem walk_found_branches (g : GraphBuilder) (pb i sa : Nat) (f1 : Branch → Branch)
    (f2 f3 : Vertex → Vertex) :
    (((g.upd_branch pb f1).upd_vertex i f2).upd_vertex sa f3).branches =
      modifyAt g.branches pb f1 := rfl

theorem merge_walk_stops (sa : Nat) (pid : Int) (pb : Nat) (vc : Bool) :
    ∀ (fuel : Nat) (g : GraphBuilder) (i : Nat) (lp : Point) (t : Nat),
      g.vertices.length ≤ i + fuel →
      sa < i → i ≤ t → t < g.vertices.length →
      ((g.vtx t).get_point_connecting_to pid pb).isSome →
      (∀ u, i ≤ u → u < t → ((g.vtx u).get_point_connecting_to pid pb).isSome = false) →
      pb < g.branches.length →
      ((merge_walk sa pid pb vc fuel g i lp).vtx sa).next_parent =
          (g.vtx sa).next_parent + 1 ∧
      (∀ u, t < u → (merge_walk sa pid pb vc fuel g i lp).vtx u = g.vtx u) ∧
      ∃ new, ((merge_walk sa pid pb vc fuel g i lp).branches.getD pb default).lines =
          ((g.branches.getD pb default).lines ++ new) ∧ new.length = t - i + 1 := by
  intro fuel
  induction fuel with
  | zero =>
    intro g i lp t hfuel hsa hit htl hfound hnone hpb
    omega
  | succ fuel ih =>
    intro g i lp t hfuel hsa hit htl hfound hnone hpb
    have hilt : i < g.vertices.length := by omega
    rw [merge_walk, if_pos hilt]
    cases hconn : (g.vtx i).get_point_connecting_to pid pb with
    | some cur =>
      dsimp only
      have hti : i = t := by
        by_contra hne
        have := hnone i (le_refl i) (by omega)
        rw [hconn] at this
        cases this
      refine ⟨?_, ?_, ?_⟩
      · rw [walk_found_vtx_sa g pb i sa _ _ _ (by omega) (by omega)]
        rfl
      · intro u hu
        exact walk_found_vtx_other g pb i sa u _ _ _ (by omega) (by omega)
      · refine ⟨[⟨lp, cur, false⟩], ?_, by simp only [List.length_singleton]; omega⟩
        rw [walk_found_branches g pb i sa _ _ _,
          getD_modifyAt_self _ _ _ _ hpb, lines_add_line]
    | none =>
      dsimp only
      have hti : i < t := by
        rcases Nat.lt_or_ge i t with h | h
        · exact h
        · have hIt : i = t := by omega
          rw [← hIt, hconn] at hfound
          cases hfound
      have hvs2 : ∀ k, k ≠ i → (((g.upd_branch pb fun b => b.add_line lp
          (g.vtx i).get_next_point vc (decide (¬ i = usize_of_i32 pid ∧
            lp.x < (g.vtx i).get_next_point.x))).upd_vertex i fun v =>
          v.register_unavailable_point (g.vtx i).get_next_point.x pid pb).vtx k) =
          g.vtx k := by
        intro k hk
        rw [vtx_upd_vertex_ne _ _ _ _ fun h => hk h.symm, vtx_upd_branch]
      obtain ⟨e1, e2, e3⟩ := ih (((g.upd_branch pb fun b => b.add_line lp
          (g.vtx i).get_next_point vc (decide (¬ i = usize_of_i32 pid ∧
            lp.x < (g.vtx i).get_next_point.x))).upd_vertex i fun v =>
          v.register_unavailable_point (g.vtx i).get_next_point.x pid pb)) (i + 1)
          (g.vtx i).get_next_point t
          (by rw [length_upd_vertex, vertices_upd_branch]; omega)
          (by omega) (by omega)
          (by rw [length_upd_vertex, vertices_upd_branch]; exact htl)
          (by rw [hvs2 t (by omega)]; exact hfound)
          (by
            intro u hu1 hu2
            rw [hvs2 u (by omega)]
            exact hnone u (by omega) hu2)
          (by rw [branches_length_upd_vertex, length_branches_upd_branch]; exact hpb)
      refine ⟨?_, ?_, ?_⟩
      · rw [e1, hvs2 sa (by omega)]
      · intro u hu
        rw [e2 u hu, hvs2 u (by omega)]
      · obtain ⟨new, hn1, hn2⟩ := e3
        refine ⟨⟨lp, (g.vtx i).get_next_point, decide (¬ i = usize_of_i32 pid ∧
          lp.x < (g.vtx i).get_next_point.x)⟩ :: new, ?_,
          by simp only [List.length_cons]; omega⟩
        rw [hn1, branches_upd_vertex, getD_branches_upd_branch_self g pb _ hpb,
          lines_add_line]
        simp

/-! ## Remaining helpers for the claim-level theorems -/

theorem getD_replicate_nil {α : Type _} (n j : Nat) :
    (List.replicate n ([] : List α)).getD j [] = [] := by
  induction n generalizing j with
  | zero => cases j <;> rfl
  | succ n ih =>
    cases j with
    | zero => rfl
    | succ j => exact ih j

theorem modifyAt_append_length {α : Type _} (l : List α) (a : α) (f : α → α) :
    modifyAt (l ++ [a]) l.length f = l ++ [f a] := by
  induction l with
  | nil => rfl
  | cons x t ih =>
    show x :: modifyAt (t ++ [a]) t.length f = x :: (t ++ [f a])
    rw [ih]

theorem setup_length (cc : Nat) (pm : List (Nat × List Int)) (hi : Option Nat)
    (hu : Bool) : (GraphBuilder.setup cc pm hi hu).vertices.length = cc := by
  by_cases hcc : cc = 0
  · subst hcc
    rfl
  · exact (setupOk_setup cc pm hi hu hcc).1

theorem generate_paths_length (g : GraphBuilder) (row : Nat) :
    (g.generate_svg_paths row).1.length = 8 := by
  show (g.branches.foldl
    (fun ps b =>
      modifyAt ps (b.get_colour % 8)
        fun bucket => bucket ++ b.lines.foldl (fun acc l => acc ++ line_pieces l row) [])
    (List.replicate 8 [])).length = 8
  refine foldl_preserves (fun ps => ps.length = 8)
    (fun ps b =>
      modifyAt ps (b.get_colour % 8)
        fun bucket => bucket ++ b.lines.foldl (fun acc l => acc ++ line_pieces l row) [])
    g.branches (List.replicate 8 []) ?_ ?_
  · simp
  · intro ps b hb hlen
    rw [length_modifyAt]
    exact hlen

theorem generate_node_nonempty (g : GraphBuilder) (row : Nat)
    (h : row < g.vertices.length) : (g.generate_svg_paths row).2 ≠ [] := by
  show (if row < g.vertices.length then
    [SvgPiece.circle ((g.vtx row).x * COL_SPACING + 7) NODE_CENTER_Y NODE_RADIUS]
    else []) ≠ []
  rw [if_pos h]
  simp

theorem mem_foldl_append {α β : Type _} (f : α → List β) (p : β) :
    ∀ (L : List α) (acc : List β),
      p ∈ L.foldl (fun a l => a ++ f l) acc ↔ p ∈ acc ∨ ∃ l ∈ L, p ∈ f l := by
  intro L
  induction L with
  | nil =>
    intro acc
    simp
  | cons x t ih =>
    intro acc
    rw [List.foldl_cons, ih]
    constructor
    · rintro (h | ⟨l, hl, hp⟩)
      · rcases List.mem_append.mp h with h | h
        · exact Or.inl h
        · exact Or.inr ⟨x, List.mem_cons_self x t, h⟩
      · exact Or.inr ⟨l, List.mem_cons_of_mem _ hl, hp⟩
    · rintro (h | ⟨l, hl, hp⟩)
      · exact Or.inl (List.mem_append.mpr (Or.inl h))
      · rcases List.mem_cons.mp hl with rfl | hl
        · exact Or.inl (List.mem_append.mpr (Or.inr hp))
        · exact Or.inr ⟨l, hl, hp⟩

theorem buckets_mem (row : Nat) (Q : SvgPiece → Prop) :
    ∀ (bs : List Branch) (acc : List (List SvgPiece)),
      (∀ j p, p ∈ acc.getD j [] → Q p) →
      (∀ b ∈ bs, ∀ l ∈ b.lines, ∀ p ∈ line_pieces l row, Q p) →
      ∀ j p, p ∈ (bs.foldl (fun ps b => modifyAt ps (b.get_colour % 8)
          fun bucket => bucket ++ b.lines.foldl
            (fun acc2 l => acc2 ++ line_pieces l row) []) acc).getD j [] → Q p := by
  intro bs
  induction bs with
  | nil =>
    intro acc hacc _ j p hp
    exact hacc j p hp
  | cons b t ih =>
    intro acc hacc hbs j p hp
    rw [List.foldl_cons] at hp
    refine ih _ ?_ (fun b2 hb2 => hbs b2 (List.mem_cons_of_mem _ hb2)) j p hp
    intro j2 p2 hp2
    by_cases hidx : b.get_colour % 8 = j2
    · subst hidx
      by_cases hlt : b.get_colour % 8 < acc.length
      · rw [getD_modifyAt_self _ _ _ _ hlt] at hp2
        rcases List.mem_append.mp hp2 with h | h
        · exact hacc _ p2 h
        · rcases (mem_foldl_append _ p2 b.lines []).mp h with h | ⟨l, hl, hple⟩
          · cases h
          · exact hbs b (List.mem_cons_self b t) l hl p2 hple
      · rw [modifyAt_oob _ _ _ (Nat.le_of_not_lt hlt)] at hp2
        exact hacc _ p2 hp2
    · rw [getD_modifyAt_ne _ _ _ _ _ hidx] at hp2
      exact hacc _ p2 hp2

theorem mem_generate (g : GraphBuilder) (row j : Nat) (p : SvgPiece)
    (hp : p ∈ (g.generate_svg_paths row).1.getD j []) :
    ∃ b ∈ g.branches, ∃ l ∈ b.lines, p ∈ line_pieces l row := by
  have hp2 : p ∈ (g.branches.foldl (fun ps b => modifyAt ps (b.get_colour % 8)
      fun bucket => bucket ++ b.lines.foldl
        (fun acc2 l => acc2 ++ line_pieces l row) []) (List.replicate 8 [])).getD j [] := hp
  exact buckets_mem row (fun p2 => ∃ b ∈ g.branches, ∃ l ∈ b.lines, p2 ∈ line_pieces l row)
    g.branches (List.replicate 8 [])
    (fun j2 p2 hp3 => by rw [getD_replicate_nil] at hp3; cases hp3)
    (fun b hb l hl p2 hp3 => ⟨b, hb, l, hl, hp3⟩) j p hp2

theorem load_loop_pres : ∀ (n : Nat) (g : GraphBuilder) (i : Nat) (g' : GraphBuilder),
    load_loop g i n = some g' → Pres g g' := by
  intro n
  induction n with
  | zero =>
    intro g i g' h
    rw [load_loop] at h
    split at h
    · cases h
    · injection h with h
      subst h
      exact pres_refl g
  | succ n ih =>
    intro g i g' h
    rw [load_loop] at h
    split at h
    · split at h
      · exact pres_trans (dp_pres_mu g i).1 (ih _ _ _ h)
      · exact ih _ _ _ h
    · injection h with h
      subst h
      exact pres_refl g

/-! ## The blocked state of a backward parent reference -/

/-- Row 0 of the input `N = 2`, `parents[1] = [0]`, after it has been
claimed by branch 0. -/
def c5_v0 : Vertex := ⟨0, 0, [1], [], 0, some 0, true, false, 1, [⟨0, 0⟩]⟩

/-- Row 1 of that input after its own normal path ran: claimed by
branch 1, its backward parent reference still unconsumed. -/
def c5_v1 : Vertex := ⟨1, 0, [], [0], 0, some 1, true, false, 1, [⟨1, 1⟩]⟩

theorem hnp_vertices_fixed (g : GraphBuilder) (sa : Nat) (lp : Point)
    (hlen : g.vertices.length = sa + 1)
    (hob : (g.vtx sa).on_branch.isSome = true)
    (hx : lp.x ≠ (g.vtx sa).next_x)
    (hnn : ∀ pid, (g.vtx sa).get_next_parent = some pid → pid ≠ NULL_VERTEX_ID) :
    (g.handle_normal_path sa lp).vertices = g.vertices := by
  unfold GraphBuilder.handle_normal_path
  dsimp only
  obtain ⟨hV, hB⟩ := get_available_colour_skeleton g sa
  generalize hC : (g.get_available_colour sa).1 = colour at *
  generalize hG1 : (g.get_available_colour sa).2 = g1 at *
  generalize hG2 : ({ g1 with branches := g1.branches ++ [Branch.new colour] } :
      GraphBuilder) = g2 at *
  have hv2 : g2.vertices = g.vertices := by
    rw [← hG2]
    exact hV
  have hvtx2 : ∀ k, g2.vtx k = g.vtx k := by
    intro k
    unfold GraphBuilder.vtx
    rw [hv2]
  have e1 : (g2.upd_vertex sa fun v => v.add_to_branch g1.branches.length lp.x) = g2 := by
    refine upd_vertex_eq_self _ _ _ ?_
    rw [hvtx2]
    exact add_to_branch_of_isSome _ _ _ hob
  rw [e1]
  have e2 : (g2.upd_vertex sa fun v =>
      v.register_unavailable_point lp.x (g2.vtx sa).id g1.branches.length) = g2 := by
    refine upd_vertex_eq_self _ _ _ ?_
    rw [hvtx2]
    exact register_eq_of_ne _ _ _ _ hx
  rw [e2]
  have hfe : g2.vertices.length = sa + 1 := by
    rw [hv2]
    exact hlen
  have hw : normal_walk g1.branches.length g2.vertices.length g2 sa (sa + 1) lp =
      (g2, sa + 1, sa) := by
    rw [hfe, normal_walk]
    have hnl : ¬ (sa + 1 < g2.vertices.length) := by omega
    rw [if_neg hnl]
  rw [hw]
  unfold normal_path_finish
  dsimp only
  have hif : sa + 1 = g2.vertices.length := hfe.symm
  rw [if_pos hif]
  cases hp : (g2.vtx sa).get_next_parent with
  | none => exact hv2
  | some pid =>
    dsimp only
    rw [hvtx2] at hp
    have hpn : pid ≠ NULL_VERTEX_ID := hnn pid hp
    rw [if_neg hpn]
    exact hv2

theorem c5_dp_vertices (g : GraphBuilder) (hg : g.vertices = [c5_v0, c5_v1]) :
    (g.determine_path 1).vertices = [c5_v0, c5_v1] := by
  have hv : g.vtx 1 = c5_v1 := by
    unfold GraphBuilder.vtx
    rw [hg]
    rfl
  have hd : g.determine_path 1 = g.handle_normal_path 1 c5_v1.get_point := by
    unfold GraphBuilder.determine_path
    rw [hv]
    rfl
  have hfix := hnp_vertices_fixed g 1 c5_v1.get_point (by rw [hg]; rfl) (by rw [hv]; rfl)
    (by rw [hv]; decide)
    (fun pid hp => by
      rw [hv] at hp
      rw [show c5_v1.get_next_parent = some 0 from rfl] at hp
      injection hp with h
      subst h
      decide)
  rw [hd, hfix]
  exact hg

theorem c5_cycle : ∀ (fuel : Nat) (g : GraphBuilder), g.vertices = [c5_v0, c5_v1] →
    load_loop g 1 fuel = none := by
  intro fuel
  induction fuel with
  | zero =>
    intro g hg
    have hlt : 1 < g.vertices.length := by
      rw [hg]
      decide
    rw [load_loop, if_pos hlt]
  | succ n ih =>
    intro g hg
    have hlt : 1 < g.vertices.length := by
      rw [hg]
      decide
    have hv : g.vtx 1 = c5_v1 := by
      unfold GraphBuilder.vtx
      rw [hg]
      rfl
    have hguard : ((g.vtx 1).get_next_parent).isSome = true ∨
        (g.vtx 1).is_not_on_branch = true := Or.inl (by rw [hv]; rfl)
    rw [load_loop, if_pos hlt, if_pos hguard]
    exact ih _ (c5_dp_vertices g hg)

theorem c5_reach (n : Nat) :
    load_loop (GraphBuilder.setup 2 [(1, [0])] none false) 0 (n + 3) =
      load_loop ⟨[c5_v0, c5_v1], [⟨0, 1, [], 0⟩, ⟨1, 2, [], 0⟩], [1, 2]⟩ 1 n := rfl

/-! ## The claim-level theorems -/

/-- The state of the input `N = 2`, `parents[1] = [0, 0]` after both rows'
normal paths ran: row 1 is a merge, both it and its (backward) parent are
on branches, and the parent still holds its self-reservation. -/
def c1_gx : GraphBuilder :=
  ((GraphBuilder.setup 2 [(1, [0, 0])] none false).determine_path 0).determine_path 1

/-- C1 counterexample: at `c1_gx` every precondition of the claim holds at
row 1 — the next unconsumed parent 0 is a merge parent, both vertices are
on branches, and the destination reservation for `(0, branch of 0)` exists
(at the parent's own row) — yet `handle_merge_path` changes nothing: no
line is appended and the parent edge is never marked consumed, because the
walk only scans rows strictly beyond the start row and the parent lies
behind it. -/
theorem merge_stitch_backward_cex :
    ((c1_gx.vtx 1).get_next_parent = some 0 ∧ (c1_gx.vtx 1).is_merge = true ∧
      (c1_gx.vtx 1).on_branch.isSome = true ∧
      (c1_gx.vtx (usize_of_i32 0)).on_branch.isSome = true ∧
      ((c1_gx.vtx (usize_of_i32 0)).get_point_connecting_to 0
        ((c1_gx.vtx (usize_of_i32 0)).on_branch.getD 0)).isSome = true) ∧
    c1_gx.handle_merge_path 1 0 ((c1_gx.vtx 1).get_point) = c1_gx := by decide

/-- C1 (amended): when the next unconsumed parent `pid` of row `r` is a
valid forward reference (`r < pid < N`) whose vertex is on branch `pb`,
the merge stitch stops exactly at the first row after `r` holding a
reservation connecting to `(pid, pb)` — a row no later than `pid`'s own
row — marking the parent edge consumed, leaving every later row untouched
and appending one line per walked row to `pb`. -/
theorem merge_stitch_stops_amended (g : GraphBuilder) (r : Nat) (pid : Int) (pb : Nat)
    (lp : Point) (hInv : GraphInv g) (hr : r < g.vertices.length)
    (hm : (g.vtx r).is_merge = true) (hrb : (g.vtx r).on_branch.isSome = true)
    (hob : (g.vtx (usize_of_i32 pid)).on_branch = some pb)
    (hpid : 0 ≤ pid) (hfwd : (r : Int) < pid)
    (hplt : pid.toNat < g.vertices.length) :
    ∃ t, r < t ∧ t ≤ pid.toNat ∧
      ((g.vtx t).get_point_connecting_to pid pb).isSome = true ∧
      (∀ u, r < u → u < t → ((g.vtx u).get_point_connecting_to pid pb).isSome = false) ∧
      ((g.handle_merge_path r pid lp).vtx r).next_parent = (g.vtx r).next_parent + 1 ∧
      (∀ u, t < u → (g.handle_merge_path r pid lp).vtx u = g.vtx u) ∧
      ∃ new, ((g.handle_merge_path r pid lp).branches.getD pb default).lines =
        (g.branches.getD pb default).lines ++ new ∧ new.length = t - r := by
  have h64 : pid < 2 ^ 64 := by
    have := hInv.1
    omega
  have hup : usize_of_i32 pid = pid.toNat := usize_of_i32_of_nonneg pid hpid h64
  have hobt : (g.vtx pid.toNat).on_branch = some pb := by
    rw [← hup]
    exact hob
  have hpe : pid = (pid.toNat : Int) := by omega
  have hfp : ((g.vtx pid.toNat).get_point_connecting_to pid pb).isSome = true :=
    self_res_found g pid.toNat pid pb hInv hplt hobt hpe
  have hrp : r < pid.toNat := by omega
  have hex : ∃ t, r < t ∧ ((g.vtx t).get_point_connecting_to pid pb).isSome = true :=
    ⟨pid.toNat, hrp, hfp⟩
  have ht1 : r < Nat.find hex := (Nat.find_spec hex).1
  have ht2 : Nat.find hex ≤ pid.toNat := Nat.find_min' hex ⟨hrp, hfp⟩
  have hmin : ∀ u, r < u → u < Nat.find hex →
      ((g.vtx u).get_point_connecting_to pid pb).isSome = false := by
    intro u hu1 hu2
    have hnq := Nat.find_min hex hu2
    cases hX : ((g.vtx u).get_point_connecting_to pid pb).isSome with
    | false => rfl
    | true => exact absurd ⟨hu1, hX⟩ hnq
  have hpblen : pb < g.branches.length := (hInv.2.1 pid.toNat hplt).2.2.2.1 pb hobt
  have ha1 : g.vertices.length ≤ (r + 1) + g.vertices.length := by omega
  have ha2 : r < r + 1 := by omega
  have ha3 : r + 1 ≤ Nat.find hex := by omega
  have ha4 : Nat.find hex < g.vertices.length := by omega
  have ha5 : ∀ u, r + 1 ≤ u → u < Nat.find hex →
      ((g.vtx u).get_point_connecting_to pid pb).isSome = false :=
    fun u hu1 hu2 => hmin u (by omega) hu2
  have hwalk := merge_walk_stops r pid pb ((g.vtx r).is_committed) g.vertices.length g
    (r + 1) lp (Nat.find hex) ha1 ha2 ha3 ha4 (Nat.find_spec hex).2 ha5 hpblen
  have hh : g.handle_merge_path r pid lp = merge_walk r pid pb ((g.vtx r).is_committed)
      g.vertices.length g (r + 1) lp := by
    unfold GraphBuilder.handle_merge_path
    rw [hob]
    rfl
  obtain ⟨w1, w2, w3⟩ := hwalk
  refine ⟨Nat.find hex, ht1, ht2, (Nat.find_spec hex).2, hmin, ?_, ?_, ?_⟩
  · rw [hh]
    exact w1
  · intro u hu
    rw [hh]
    exact w2 u hu
  · obtain ⟨new, hn1, hn2⟩ := w3
    refine ⟨new, ?_, by omega⟩
    rw [hh]
    exact hn1

/-- The state of the input `N = 3`, `parents = [[1, 2], [2], [NULL]]`
after row 0's first (normal) path ran: row 0 is a merge whose next
unconsumed parent 2 lies forward and is already on branch 0. -/
def c1_gw : GraphBuilder :=
  (GraphBuilder.setup 3 [(0, [1, 2]), (1, [2]), (2, [-1])] none false).determine_path 0

/-- C1 witness: the amended theorem applied to the concrete merge state
`c1_gw` at row 0 with forward parent 2. -/
theorem merge_stitch_stops_witness :
    GraphInv c1_gw ∧ 0 < c1_gw.vertices.length ∧ (c1_gw.vtx 0).is_merge = true ∧
    (c1_gw.vtx 0).on_branch.isSome = true ∧
    (c1_gw.vtx (usize_of_i32 2)).on_branch = some 0 ∧
    (0 : Int) ≤ 2 ∧ ((0 : Nat) : Int) < 2 ∧ (2 : Int).toNat < c1_gw.vertices.length ∧
    ∃ t, 0 < t ∧ t ≤ (2 : Int).toNat ∧
      ((c1_gw.vtx t).get_point_connecting_to 2 0).isSome = true ∧
      (∀ u, 0 < u → u < t → ((c1_gw.vtx u).get_point_connecting_to 2 0).isSome = false) ∧
      ((c1_gw.handle_merge_path 0 2 ⟨0, 0⟩).vtx 0).next_parent =
        (c1_gw.vtx 0).next_parent + 1 ∧
      (∀ u, t < u → (c1_gw.handle_merge_path 0 2 ⟨0, 0⟩).vtx u = c1_gw.vtx u) ∧
      ∃ new, ((c1_gw.handle_merge_path 0 2 ⟨0, 0⟩).branches.getD 0 default).lines =
        (c1_gw.branches.getD 0 default).lines ++ new ∧ new.length = t - 0 :=
  ⟨by decide, by decide, by decide, by decide, by decide, by decide, by decide, by decide,
    merge_stitch_stops_amended c1_gw 0 2 0 ⟨0, 0⟩ (by decide) (by decide) (by decide)
      (by decide) (by decide) (by decide) (by decide) (by decide)⟩

/-- C2: `get_available_colour` returns the lowest-indexed palette slot
whose recorded end row is strictly below the start row, leaving the
builder unchanged; when no slot qualifies it returns the index of a
freshly appended slot. -/
theorem colour_allocation_lowest_slot (g : GraphBuilder) (s : Nat) :
    ((g.get_available_colour s).1 < g.available_colours.length ∧
      g.available_colours.getD (g.get_available_colour s).1 0 < s ∧
      (∀ j, j < (g.get_available_colour s).1 → ¬ g.available_colours.getD j 0 < s) ∧
      (g.get_available_colour s).2 = g) ∨
    ((∀ e ∈ g.available_colours, ¬ e < s) ∧
      (g.get_available_colour s).1 = g.available_colours.length ∧
      (g.get_available_colour s).2.available_colours = g.available_colours ++ [0]) := by
  unfold GraphBuilder.get_available_colour
  cases hfc : find_colour g.available_colours s 0 with
  | some i =>
    left
    obtain ⟨h1, h2, h3, h4⟩ := find_colour_some s g.available_colours 0 i hfc
    dsimp only
    refine ⟨by omega, ?_, ?_, rfl⟩
    · have hi0 : i - 0 = i := by omega
      rw [hi0] at h3
      exact h3
    · intro j hj
      exact h4 j (by omega)
  | none =>
    right
    dsimp only
    exact ⟨(find_colour_none s g.available_colours 0).mp hfc, rfl, rfl⟩

def c3_parent_map : List (Nat × List Int) :=
  [(0, [1]), (1, [2]), (2, [3]), (3, [4]), (4, [-1])]

/-- The result of loading scenario A (computed once, checked against the
program by `decide` in the theorem below). -/
def c3_result : GraphBuilder :=
  ⟨[⟨0, 0, [], [1], 1, some 0, true, false, 1, [⟨0, 0⟩]⟩,
    ⟨1, 0, [0], [2], 1, some 0, true, false, 1, [⟨1, 0⟩]⟩,
    ⟨2, 0, [1], [3], 1, some 0, true, false, 1, [⟨2, 0⟩]⟩,
    ⟨3, 0, [2], [4], 1, some 0, true, false, 1, [⟨3, 0⟩]⟩,
    ⟨4, 0, [3], [-1], 1, some 0, true, false, 1, [⟨4, 0⟩]⟩],
   [⟨0, 5, [⟨⟨0, 0⟩, ⟨0, 1⟩, false⟩, ⟨⟨0, 1⟩, ⟨0, 2⟩, false⟩,
      ⟨⟨0, 2⟩, ⟨0, 3⟩, false⟩, ⟨⟨0, 3⟩, ⟨0, 4⟩, false⟩], 0⟩],
   [5]⟩

/-- C3: the concrete linear history `N = 5`, `parents[i] = [i+1]`,
`parents[4] = [NULL]` loads successfully with every row in lane 0, one
single branch whose end is 5, and colour 0 at every row. -/
theorem scenario_a_linear_history :
    ∃ g, GraphBuilder.new.load_commits 20 5 c3_parent_map none false = some g ∧
      (∀ r, r < 5 → g.get_vertex_column r = 0) ∧
      g.branches.length = 1 ∧ (g.branches.getD 0 default).«end» = 5 ∧
      (∀ r, r < 5 → g.get_vertex_colour r = 0) :=
  ⟨c3_result, by decide⟩

/-- C4: a reservation call takes effect exactly when the requested lane
equals the vertex's `next_x` counter — then the counter advances by one,
the reservation is appended at that lane, and the table stays dense
(non-negative counter, length = counter); any other lane is a no-op. -/
theorem reservation_dense_commit (v : Vertex) (L ct : Int) (ob : Nat) (hD : DenseV v) :
    (L ≠ v.next_x → v.register_unavailable_point L ct ob = v) ∧
    (L = v.next_x → 0 ≤ L ∧
      (v.register_unavailable_point L ct ob).next_x = L + 1 ∧
      (v.register_unavailable_point L ct ob).connections = v.connections ++ [⟨ct, ob⟩] ∧
      DenseV (v.register_unavailable_point L ct ob)) := by
  refine ⟨fun h => register_eq_of_ne v L ct ob h, ?_⟩
  intro h
  subst h
  have hreg := register_eq_append v ct ob hD
  rw [hreg]
  obtain ⟨h0, hlen⟩ := hD
  refine ⟨h0, rfl, rfl, ?_, ?_⟩
  · show (0 : Int) ≤ v.next_x + 1
    omega
  · show (v.connections ++ [(⟨ct, ob⟩ : UnavailablePoint)]).length = (v.next_x + 1).toNat
    rw [List.length_append]
    simp only [List.length_singleton]
    omega

/-- C4 witness: the characterization applied to a fresh vertex at lane 0. -/
theorem reservation_dense_commit_witness :
    DenseV (Vertex.new 0) ∧
    (((0 : Int) ≠ (Vertex.new 0).next_x →
        (Vertex.new 0).register_unavailable_point 0 3 1 = Vertex.new 0) ∧
      ((0 : Int) = (Vertex.new 0).next_x → (0 : Int) ≤ 0 ∧
        ((Vertex.new 0).register_unavailable_point 0 3 1).next_x = 0 + 1 ∧
        ((Vertex.new 0).register_unavailable_point 0 3 1).connections =
          (Vertex.new 0).connections ++ [⟨3, 1⟩] ∧
        DenseV ((Vertex.new 0).register_unavailable_point 0 3 1))) :=
  ⟨by decide, reservation_dense_commit (Vertex.new 0) 0 3 1 (by decide)⟩

/-- C5 counterexample: the input `N = 2`, `parents[1] = [0]` — a valid
row index below `N`, merely pointing backward — makes the dispatch loop
spin forever at row 1 (the normal path can neither claim the already
claimed parent nor consume the edge), so `load_commits` never returns,
whatever the fuel. -/
theorem c5_diverges_all : ∀ fuel : Nat,
    GraphBuilder.new.load_commits fuel 2 [(1, [0])] none false = none := by
  intro fuel
  match fuel with
  | 0 => rfl
  | 1 => rfl
  | 2 => rfl
  | n + 3 =>
    show load_loop (GraphBuilder.setup 2 [(1, [0])] none false) 0 (n + 3) = none
    rw [c5_reach n]
    exact c5_cycle n _ rfl

/-- C5 counterexample (closed form): no amount of fuel makes the load of
the backward-parent input `N = 2`, `parents[1] = [0]` return — the
dispatch loop never finishes. -/
theorem load_backward_diverges_cex :
    ¬∃ fuel g, GraphBuilder.new.load_commits fuel 2 [(1, [0])] none false = some g := by
  rintro ⟨fuel, g, h⟩
  rw [c5_diverges_all fuel] at h
  cases h

/-- C5 (amended): for inputs whose non-NULL parent references all point
strictly forward (every parent of row i is a row p with i < p < N),
`load_commits` terminates with exactly N vertices and every row yields
geometry: eight colour buckets of path pieces and a nonempty node
marker. -/
theorem load_terminates_forward_amended (cc : Nat) (pm : List (Nat × List Int))
    (hi : Option Nat) (hu : Bool) (h31 : cc < 2 ^ 31)
    (hpm : ∀ e ∈ pm, ∀ p ∈ e.2, p = NULL_VERTEX_ID ∨ ((e.1 : Int) < p ∧ p.toNat < cc)) :
    ∃ fuel g, GraphBuilder.new.load_commits fuel cc pm hi hu = some g ∧
      g.vertices.length = cc ∧
      ∀ r, r < cc → (g.generate_svg_paths r).1.length = 8 ∧
        (g.generate_svg_paths r).2 ≠ [] := by
  have hI := graphInv_setup cc pm hi hu h31
  have hF := setup_forward cc pm hi hu hpm
  have hsl := setup_length cc pm hi hu
  obtain ⟨g', h1, h2, h3⟩ := load_loop_total
    ((GraphBuilder.setup cc pm hi hu).mu + cc) (GraphBuilder.setup cc pm hi hu) 0 hI hF
    (by omega)
  refine ⟨(GraphBuilder.setup cc pm hi hu).mu + cc, g', h1, by omega, ?_⟩
  intro r hr
  exact ⟨generate_paths_length g' r, generate_node_nonempty g' r (by omega)⟩

/-- C5 witness: the amended termination theorem applied to scenario A. -/
theorem load_terminates_forward_witness :
    5 < 2 ^ 31 ∧
    (∀ e ∈ c3_parent_map, ∀ p ∈ e.2,
      p = NULL_VERTEX_ID ∨ ((e.1 : Int) < p ∧ p.toNat < 5)) ∧
    ∃ fuel g, GraphBuilder.new.load_commits fuel 5 c3_parent_map none false = some g ∧
      g.vertices.length = 5 ∧
      ∀ r, r < 5 → (g.generate_svg_paths r).1.length = 8 ∧
        (g.generate_svg_paths r).2 ≠ [] :=
  ⟨by decide, by decide,
    load_terminates_forward_amended 5 c3_parent_map none false (by decide) (by decide)⟩

/-- C6 counterexample: the out-of-range parent 5 of `N = 2` is NOT
treated like NULL — it is dropped during edge setup (no parent-list
entry), whereas NULL appends a sentinel entry, and the loaded graphs
differ observably: row 0's merge flag is false for `[1, 5]` but true for
`[1, NULL]`. -/
theorem malformed_parent_cex :
    ((GraphBuilder.new.load_commits 10 2 [(0, [1, 5])] none false).map
      fun g => g.is_vertex_merge 0) = some false ∧
    ((GraphBuilder.new.load_commits 10 2 [(0, [1, -1])] none false).map
      fun g => g.is_vertex_merge 0) = some true ∧
    ((GraphBuilder.setup 2 [(0, [1, 5])] none false).vtx 0).parents = [1] ∧
    ((GraphBuilder.setup 2 [(0, [1, -1])] none false).vtx 0).parents = [1, -1] := by
  decide

/-- C6 (amended): a malformed parent reference (neither a valid row below
`commit_count` nor the NULL sentinel) is silently dropped by the edge
setup — the vertex list is returned unchanged — while a NULL reference
appends a NULL parent entry; in neither case does processing fail. -/
theorem malformed_parent_amended (vs : List Vertex) (cc idx : Nat) (p : Int)
    (hmal : ¬(0 ≤ p ∧ p < (cc : Int)) ∧ p ≠ NULL_VERTEX_ID) :
    add_edge vs cc idx p = vs ∧
    add_edge vs cc idx NULL_VERTEX_ID =
      modifyAt vs idx fun v => v.add_parent NULL_VERTEX_ID := by
  constructor
  · unfold add_edge
    rw [if_neg hmal.1, if_neg hmal.2]
  · unfold add_edge
    have h1 : ¬((0 : Int) ≤ NULL_VERTEX_ID ∧ NULL_VERTEX_ID < (cc : Int)) :=
      fun hc => absurd hc.1 (by decide)
    rw [if_neg h1, if_pos rfl]

/-- C6 witness: the amended edge-setup behaviour at the concrete
malformed reference 5 with window size 2. -/
theorem malformed_parent_witness :
    (¬((0 : Int) ≤ 5 ∧ (5 : Int) < ((2 : Nat) : Int)) ∧ (5 : Int) ≠ NULL_VERTEX_ID) ∧
    (add_edge [Vertex.new 0, Vertex.new 1] 2 0 5 = [Vertex.new 0, Vertex.new 1] ∧
      add_edge [Vertex.new 0, Vertex.new 1] 2 0 NULL_VERTEX_ID =
        modifyAt [Vertex.new 0, Vertex.new 1] 0 fun v => v.add_parent NULL_VERTEX_ID) :=
  ⟨by decide, malformed_parent_amended [Vertex.new 0, Vertex.new 1] 2 0 5 (by decide)⟩

/-- C7: once a vertex is claimed, every later claim attempt is a no-op
(the whole vertex, lane included, is unchanged), and the recorded branch
survives every `determine_path` call and the whole dispatch loop. -/
theorem claim_once_no_reassign :
    (∀ v : Vertex, v.on_branch.isSome = true → ∀ b x, v.add_to_branch b x = v) ∧
    (∀ g : GraphBuilder, ∀ i k b0 : Nat, (g.vtx k).on_branch = some b0 →
      ((g.determine_path i).vtx k).on_branch = some b0) ∧
    (∀ n : Nat, ∀ g : GraphBuilder, ∀ i : Nat, ∀ g' : GraphBuilder, ∀ k b0 : Nat,
      load_loop g i n = some g' → (g.vtx k).on_branch = some b0 →
      (g'.vtx k).on_branch = some b0) := by
  refine ⟨fun v h b x => add_to_branch_of_isSome v b x h, ?_, ?_⟩
  · intro g i k b0 h
    exact ((dp_pres_mu g i).1.2.2 k).2.2 b0 h
  · intro n g i g' k b0 hl h
    exact ((load_loop_pres n g i g' hl).2.2 k).2.2 b0 h

/-- C7 witness: the no-op on the already claimed concrete vertex. -/
theorem claim_once_witness :
    (c5_v0.on_branch.isSome = true) ∧ c5_v0.add_to_branch 3 9 = c5_v0 :=
  ⟨by decide, claim_once_no_reassign.1 c5_v0 (by decide) 3 9⟩

/-- C8: in any loaded graph, a curve piece appears in a row's generated
geometry only for a cross-lane line and only at that line's two endpoint
rows; moreover no loaded line has any row strictly between its endpoint
rows (every line spans exactly one row), so pass-through rows of a
multi-row connection belong to other (vertical) lines. -/
theorem curves_only_at_endpoints_loaded (fuel cc : Nat) (pm : List (Nat × List Int))
    (hi : Option Nat) (hu : Bool) (g : GraphBuilder) (h31 : cc < 2 ^ 31)
    (hload : GraphBuilder.new.load_commits fuel cc pm hi hu = some g) :
    ∀ row j : Nat, ∀ p ∈ (g.generate_svg_paths row).1.getD j [], p.isCurve = true →
      ∃ b ∈ g.branches, ∃ l ∈ b.lines, p ∈ line_pieces l row ∧
        l.p1.x ≠ l.p2.x ∧
        (usize_of_i32 l.p1.y = row ∨ usize_of_i32 l.p2.y = row) ∧
        ¬∃ r2 : Nat, l.p1.y < (r2 : Int) ∧ (r2 : Int) < l.p2.y := by
  have hInv : GraphInv g :=
    load_loop_inv fuel (GraphBuilder.setup cc pm hi hu) 0 g
      (graphInv_setup cc pm hi hu h31) hload
  intro row j p hp hc
  obtain ⟨b, hb, l, hl, hpl⟩ := mem_generate g row j p hp
  obtain ⟨hx, hend⟩ := curve_only_at_endpoint_rows l row p hpl hc
  refine ⟨b, hb, l, hl, hpl, hx, hend, ?_⟩
  rintro ⟨r2, hr1, hr2⟩
  obtain ⟨hy0, hy1⟩ := hInv.2.2 b hb l hl
  omega

/-- The result of loading `N = 2` linear history (for the C8 witness). -/
def c8_result : GraphBuilder :=
  ⟨[⟨0, 0, [], [1], 1, some 0, true, false, 1, [⟨0, 0⟩]⟩,
    ⟨1, 0, [0], [-1], 1, some 0, true, false, 1, [⟨1, 0⟩]⟩],
   [⟨0, 2, [⟨⟨0, 0⟩, ⟨0, 1⟩, false⟩], 0⟩],
   [2]⟩

/-- C8 witness: the endpoint-row theorem applied to a concrete loaded
graph. -/
theorem curves_endpoint_witness :
    2 < 2 ^ 31 ∧
    GraphBuilder.new.load_commits 10 2 [(0, [1]), (1, [-1])] none false = some c8_result ∧
    (∀ row j : Nat, ∀ p ∈ (c8_result.generate_svg_paths row).1.getD j [],
      p.isCurve = true →
      ∃ b ∈ c8_result.branches, ∃ l ∈ b.lines, p ∈ line_pieces l row ∧
        l.p1.x ≠ l.p2.x ∧
        (usize_of_i32 l.p1.y = row ∨ usize_of_i32 l.p2.y = row) ∧
        ¬∃ r2 : Nat, l.p1.y < (r2 : Int) ∧ (r2 : Int) < l.p2.y) :=
  ⟨by decide, by decide,
    curves_only_at_endpoints_loaded 10 2 [(0, [1]), (1, [-1])] none false c8_result
      (by decide) (by decide)⟩

/-- C9: `load_commits` ignores the builder it is called on (it rebuilds
all state from its arguments), so loading input A and then input B leaves
exactly the state of loading B on a fresh builder, and every per-row
query of the result — lane, colour, merge flag, geometry — depends only
on B. -/
theorem reload_depends_on_second_input (g0 gA : GraphBuilder) (fa ca : Nat)
    (pa : List (Nat × List Int)) (ia : Option Nat) (ua : Bool) (fb cb : Nat)
    (qb : List (Nat × List Int)) (ib : Option Nat) (ub : Bool)
    (hA : g0.load_commits fa ca pa ia ua = some gA) :
    gA.load_commits fb cb qb ib ub = GraphBuilder.new.load_commits fb cb qb ib ub ∧
    ((gA.load_commits fb cb qb ib ub).map fun gB => fun r : Nat =>
        (gB.get_vertex_column r, gB.get_vertex_colour r, gB.is_vertex_merge r,
          gB.generate_svg_paths r)) =
      ((GraphBuilder.new.load_commits fb cb qb ib ub).map fun gB => fun r : Nat =>
        (gB.get_vertex_column r, gB.get_vertex_colour r, gB.is_vertex_merge r,
          gB.generate_svg_paths r)) :=
  ⟨rfl, rfl⟩

/-- C9 witness: reloading after a first successful load. -/
theorem reload_witness :
    GraphBuilder.new.load_commits 1 0 [] none false = some GraphBuilder.new ∧
    (GraphBuilder.new.load_commits 3 1 [(0, [-1])] none false =
        GraphBuilder.new.load_commits 3 1 [(0, [-1])] none false ∧
      ((GraphBuilder.new.load_commits 3 1 [(0, [-1])] none false).map
          fun gB => fun r : Nat =>
          (gB.get_vertex_column r, gB.get_vertex_colour r, gB.is_vertex_merge r,
            gB.generate_svg_paths r)) =
        ((GraphBuilder.new.load_commits 3 1 [(0, [-1])] none false).map
          fun gB => fun r : Nat =>
          (gB.get_vertex_column r, gB.get_vertex_colour r, gB.is_vertex_merge r,
            gB.generate_svg_paths r))) :=
  ⟨rfl, reload_depends_on_second_input GraphBuilder.new GraphBuilder.new 1 0 [] none false
    3 1 [(0, [-1])] none false rfl⟩

/-- C10: the self-reservation invariant — established by the loader's
setup, preserved by every `determine_path` and by the whole dispatch
loop — under which every claimed vertex holds, at its claimed lane, a
reservation routing to itself on its own branch; consequently the merge
stitch's reservation search succeeds at the parent's own row. -/
theorem self_reservation_invariant :
    (∀ cc : Nat, ∀ pm : List (Nat × List Int), ∀ hi : Option Nat, ∀ hu : Bool,
      cc < 2 ^ 31 → GraphInv (GraphBuilder.setup cc pm hi hu)) ∧
    (∀ g : GraphBuilder, ∀ i : Nat, GraphInv g → i < g.vertices.length →
      GraphInv (g.determine_path i)) ∧
    (∀ n : Nat, ∀ g : GraphBuilder, ∀ i : Nat, ∀ g' : GraphBuilder, GraphInv g →
      load_loop g i n = some g' → GraphInv g') ∧
    (∀ g : GraphBuilder, ∀ t pb : Nat, GraphInv g → t < g.vertices.length →
      (g.vtx t).on_branch = some pb →
      0 ≤ (g.vtx t).x ∧ (g.vtx t).x < (g.vtx t).next_x ∧
      (g.vtx t).connections.getD (g.vtx t).x.toNat default = ⟨(t : Int), pb⟩ ∧
      ((g.vtx t).get_point_connecting_to (t : Int) pb).isSome = true) := by
  refine ⟨fun cc pm hi hu h31 => graphInv_setup cc pm hi hu h31,
    fun g i h1 h2 => dp_inv g i h1 h2,
    fun n g i g' h1 h2 => load_loop_inv n g i g' h1 h2, ?_⟩
  intro g t pb hI ht hob
  obtain ⟨h1, h2, h3⟩ := (hI.2.1 t ht).2.2.1 pb hob
  exact ⟨h1, h2, h3, self_res_found g t (t : Int) pb hI ht hob rfl⟩

/-- C10 witness: the invariant holds for a concrete freshly-set-up
window. -/
theorem self_reservation_witness :
    2 < 2 ^ 31 ∧ GraphInv (GraphBuilder.setup 2 [(1, [0])] none false) :=
  ⟨by decide, self_reservation_invariant.1 2 [(1, [0])] none false (by decide)⟩

/-- The result of loading `N = 5`,
`parents = [[2], [2], [NULL], [4, 1], [NULL]]` (for the C2
counterexample). -/
def c2_result : GraphBuilder :=
  ⟨[⟨0, 0, [], [2], 1, some 0, true, false, 1, [⟨0, 0⟩]⟩,
    ⟨1, 1, [3], [2], 1, some 1, true, false, 2, [⟨2, 0⟩, ⟨1, 1⟩]⟩,
    ⟨2, 0, [0, 1], [-1], 1, some 0, true, false, 1, [⟨2, 0⟩]⟩,
    ⟨3, 1, [], [4, 1], 2, some 2, true, false, 2, [⟨-1, 0⟩, ⟨3, 2⟩]⟩,
    ⟨4, 1, [3], [-1], 1, some 2, true, false, 3, [⟨-1, 0⟩, ⟨4, 2⟩, ⟨1, 1⟩]⟩],
   [⟨0, 5, [⟨⟨0, 0⟩, ⟨0, 1⟩, false⟩, ⟨⟨0, 1⟩, ⟨0, 2⟩, false⟩,
      ⟨⟨0, 2⟩, ⟨0, 3⟩, false⟩, ⟨⟨0, 3⟩, ⟨0, 4⟩, false⟩], 0⟩,
    ⟨1, 2, [⟨⟨1, 1⟩, ⟨0, 2⟩, false⟩, ⟨⟨1, 3⟩, ⟨2, 4⟩, true⟩, ⟨⟨1, 3⟩, ⟨2, 4⟩, false⟩], 0⟩,
    ⟨1, 5, [⟨⟨1, 3⟩, ⟨1, 4⟩, false⟩], 0⟩],
   [5, 5]⟩

/-- C2 counterexample: the claim's concluding no-overlap consequence is
false of the program.  Loading `N = 5`,
`parents = [[2], [2], [NULL], [4, 1], [NULL]]`, the branch of row 1
(index 1) finishes with recorded end 2, row 3's branch (index 2) then
starts at row 3 and legitimately reuses colour 1 — but row 3's second,
backward merge parent 1 makes the merge stitch append lines to branch 1
at rows 3..4, far below its recorded end, so branches 1 and 2 hold the
same pre-modulo colour 1 while both draw in rows 3..4: their drawn row
ranges overlap. -/
theorem colour_overlap_cex :
    ∃ g, GraphBuilder.new.load_commits 50 5
        [(0, [2]), (1, [2]), (2, [-1]), (3, [4, 1]), (4, [-1])] none false = some g ∧
      1 < g.branches.length ∧ 2 < g.branches.length ∧
      (g.branches.getD 1 default).colour = (g.branches.getD 2 default).colour ∧
      ∃ l1 ∈ (g.branches.getD 1 default).lines,
        ∃ l2 ∈ (g.branches.getD 2 default).lines,
          l1.p1.y < l2.p2.y ∧ l2.p1.y < l1.p2.y :=
  ⟨c2_result, by decide⟩
